import Mathlib

/-!
# Bayesian spam filter (Email.h, Email.cpp, spam filter.cpp)

A shallow embedding of the record parser `Email::setEmailData`, the vector
addition `operator+` and the three phases of `main` (training loop, derivation
of the log-probabilities, test loop), followed by theorems about them.

Modelling conventions.

* `double` is an arbitrary linearly ordered field `α` (exact arithmetic); the
  theorems that involve logarithms take `α := ℝ` and `log := Real.log`.  The
  library function `log` of `math.h` is a parameter `ln` of the definitions.
* `std::string` is `List Char`, `std::vector<double>` is `List α`; an indexed
  read `v[i]` is `v.getD i 0` and an indexed write is `List.set`.  Every read
  and write of the program is within bounds as long as the vectors have
  `WORDS_SET_SIZE` entries, which the theorems state where it matters.
* The counters of `main` are `int`; they are modelled as unbounded integers
  (they only overflow after `2^31` records).
* `WORDS_SET_SIZE` and `OFF_SET` are declared `extern const` in `Email.h` and
  are the two fields of `Config`; `main` gives them the values `57` and
  `1.0/4000` (`Config.reference`).  `main` spells the bound of its three
  `for` loops as the literal `57`, the value it gives `WORDS_SET_SIZE`; the
  definitions over the field keep that bound tied to the constant.
* The section on special values refines the derivation and the test loop:
  a `double` may be an infinity or NaN, the loops run to the literal `57` and
  every indexed access is checked.  For `WORDS_SET_SIZE = 57` and as long as
  no special value arises, the refined definitions agree with those over the
  field (`deriveModelD_ofModel`, `log_ratioD_ofModel`, `testStepD_ofModel`).
* A `for (int i = lo; i < lo + n; i++)` loop is `forLoop body lo n`.
-/

namespace SpamFilter

/-! ## Constants -/

/-- The two process-wide constants `WORDS_SET_SIZE` and `OFF_SET`. -/
structure Config (α : Type) where
  WORDS_SET_SIZE : Nat
  OFF_SET : α

/-- The values `main` gives the constants: `WORDS_SET_SIZE = 57`,
`OFF_SET = 1.0/4000`. -/
def Config.reference (α : Type) [Field α] : Config α :=
  { WORDS_SET_SIZE := 57, OFF_SET := 1 / 4000 }

/-! ## Control flow -/

/-- The loop `for (int i = lo; i < lo + n; i++) st = body i st`. -/
def forLoop {σ : Type} (body : Nat → σ → σ) : Nat → Nat → σ → σ
  | _, 0, st => st
  | i, n + 1, st => forLoop body (i + 1) n (body i st)

/-! ## Input streams (`std::stringstream`) -/

/-- An input stream: the characters not yet read and the two state bits that
the program can observe. -/
structure IStream where
  buf : List Char
  eofbit : Bool
  failbit : Bool
deriving DecidableEq, Repr

/-- A freshly constructed `stringstream` over the text `t`. -/
def IStream.ofString (t : List Char) : IStream :=
  { buf := t, eofbit := false, failbit := false }

/-- The test `good()`. -/
def IStream.good (ss : IStream) : Bool := !ss.eofbit && !ss.failbit

/-- The call `std::getline(ss, s, delim)`.  When the stream is not good the
sentry fails: `failbit` is set and `s` keeps its value.  Otherwise `s` is
erased and receives the characters up to the delimiter, which is extracted and
dropped; when the data ends first `eofbit` is set, and `failbit` too when
nothing at all was extracted. -/
def getline (ss : IStream) (s : List Char) (delim : Char) : IStream × List Char :=
  if ss.good then
    let tok := ss.buf.takeWhile (fun c => c != delim)
    match ss.buf.dropWhile (fun c => c != delim) with
    | [] => ({ buf := [], eofbit := true, failbit := tok.isEmpty }, tok)
    | _ :: rest => ({ buf := rest, eofbit := false, failbit := false }, tok)
  else
    ({ ss with failbit := true }, s)

/-! ## Formatted extraction (`operator>>`) -/

/-- The test `isspace` of the classic locale. -/
def isspace (c : Char) : Bool :=
  c = ' ' || c = '\t' || c = '\n' || c = '\x0b' || c = '\x0c' || c = '\r'

/-- The test `isdigit`. -/
def isdigit (c : Char) : Bool := decide ('0'.toNat ≤ c.toNat) && decide (c.toNat ≤ '9'.toNat)

/-- The value of a decimal digit character. -/
def digitValue (c : Char) : Nat := c.toNat - '0'.toNat

/-- The value of a run of decimal digits, most significant first. -/
def digitsValue (ds : List Char) : Nat := ds.foldl (fun n c => 10 * n + digitValue c) 0

/-- An optional sign in front of a number: whether it is `-`, and the rest. -/
def splitSign (s : List Char) : Bool × List Char :=
  match s with
  | [] => (false, [])
  | c :: r => if c = '-' then (true, r) else if c = '+' then (false, r) else (false, c :: r)

/-- The largest `int`. -/
def INT_MAX : Int := 2 ^ 31 - 1

/-- The smallest `int`. -/
def INT_MIN : Int := -(2 ^ 31)

/-- The extraction `toNumber >> x` for a `double` target on a fresh stream over
`s`; `none` means that the target keeps its value.  Leading white space is
skipped; when nothing is left the sentry fails and the target is untouched.
Otherwise an optional sign, digits, and an optional point with digits are
read; when there is no digit the conversion fails and zero is stored (the rule
since C++11).  Exponents are not in the modelled grammar. -/
def extractDouble {α : Type} [Field α] (s : List Char) : Option α :=
  match s.dropWhile isspace with
  | [] => none
  | c :: cs =>
    let sr := splitSign (c :: cs)
    let ip := sr.2.takeWhile isdigit
    let fp :=
      match sr.2.dropWhile isdigit with
      | [] => []
      | d :: r => if d = '.' then r.takeWhile isdigit else []
    if ip.isEmpty && fp.isEmpty then some 0
    else
      let m : α := (digitsValue ip : α) + (digitsValue fp : α) / 10 ^ fp.length
      some (if sr.1 then -m else m)

/-- The extraction `toNumber >> x` for an `int` target on a fresh stream over
`s`; `none` means that the target keeps its value.  White space and sign as for
`double`; digits only; a value out of range is stored as the nearest `int`. -/
def extractInt (s : List Char) : Option Int :=
  match s.dropWhile isspace with
  | [] => none
  | c :: cs =>
    let sr := splitSign (c :: cs)
    let ds := sr.2.takeWhile isdigit
    if ds.isEmpty then some 0
    else
      let v : Int := if sr.1 then -(digitsValue ds : Int) else (digitsValue ds : Int)
      some (max INT_MIN (min INT_MAX v))

/-! ## The class `Email` -/

/-- The data members of `Email`. -/
structure Email (α : Type) where
  word_set_size_ : Nat
  words_frequency_ : List α
  spam_or_ham_ : Int
  num_words_ : α

/-- The constructor `Email::Email()`. -/
def Email.new {α : Type} [Field α] (cfg : Config α) : Email α :=
  { word_set_size_ := cfg.WORDS_SET_SIZE
    words_frequency_ := List.replicate cfg.WORDS_SET_SIZE 0
    spam_or_ham_ := 0
    num_words_ := 0 }

/-- The accessor `Email::isHam`. -/
def Email.isHam {α : Type} (e : Email α) : Int := e.spam_or_ham_

/-- The accessor `Email::numWords`. -/
def Email.numWords {α : Type} (e : Email α) : α := e.num_words_

/-- The accessor `Email::wordsFrequency`. -/
def Email.wordsFrequency {α : Type} (e : Email α) : List α := e.words_frequency_

/-- The variables that the loop of `setEmailData` updates: the stream `ss`,
the string `s` and the object itself. -/
structure ParseState (α : Type) where
  ss : IStream
  s : List Char
  email : Email α

/-- One iteration of the loop of `Email::setEmailData`. -/
def setEmailDataBody {α : Type} [Field α] (cfg : Config α) (i : Nat)
    (st : ParseState α) : ParseState α :=
  let r := getline st.ss st.s ','
  let e := st.email
  if i = e.word_set_size_ then
    let label :=
      match extractInt r.2 with
      | some v => v
      | none => e.spam_or_ham_
    { ss := r.1, s := r.2, email := { e with spam_or_ham_ := label } }
  else
    let wf1 :=
      match (extractDouble r.2 : Option α) with
      | some v => e.words_frequency_.set i v
      | none => e.words_frequency_
    let wf2 := wf1.set i (wf1.getD i 0 + cfg.OFF_SET)
    { ss := r.1, s := r.2,
      email := { e with words_frequency_ := wf2, num_words_ := e.num_words_ + wf2.getD i 0 } }

/-- The method `Email::setEmailData`. -/
def Email.setEmailData {α : Type} [Field α] (cfg : Config α) (e : Email α)
    (email_data : List Char) : Email α :=
  (forLoop (setEmailDataBody cfg) 0 (e.word_set_size_ + 1)
    { ss := IStream.ofString email_data, s := [], email := e }).email

/-! ## Vector addition -/

/-- The function `operator+` on `vector<double>`: it throws when the sizes
differ and otherwise pushes `A[i] + B[i]` for each index of `A`. -/
def operator_plus {α : Type} [Field α] (A B : List α) : Except String (List α) :=
  if A.length ≠ B.length then
    Except.error "The sizes of the two vector objects are not equal"
  else
    Except.ok (forLoop (fun i ans => ans ++ [A.getD i 0 + B.getD i 0]) 0 A.length [])

/-! ## `main`: the training loop -/

/-- The variables of `main` that the training loop updates. -/
structure Training (α : Type) where
  my_email : Email α
  num_words_spam : List α
  num_words_ham : List α
  num_spam : Int
  num_ham : Int

/-- The state of `main` in front of the training loop. -/
def Training.init {α : Type} [Field α] (cfg : Config α) : Training α :=
  { my_email := Email.new cfg
    num_words_spam := List.replicate cfg.WORDS_SET_SIZE 0
    num_words_ham := List.replicate cfg.WORDS_SET_SIZE 0
    num_spam := 0
    num_ham := 0 }

/-- The body of the training loop for the line `email_data`; an exception of
`operator+` ends the program. -/
def trainStep {α : Type} [Field α] (cfg : Config α) (st : Training α)
    (email_data : List Char) : Except String (Training α) := do
  let st0 : Training α := { st with my_email := st.my_email.setEmailData cfg email_data }
  let st1 ←
    if st0.my_email.isHam = 0 then do
      let v ← operator_plus st0.num_words_spam st0.my_email.wordsFrequency
      pure { st0 with num_spam := st0.num_spam + 1, num_words_spam := v }
    else pure st0
  let st2 ←
    if st1.my_email.isHam = 1 then do
      let v ← operator_plus st1.num_words_ham st1.my_email.wordsFrequency
      pure { st1 with num_ham := st1.num_ham + 1, num_words_ham := v }
    else pure st1
  pure st2

/-- The training loop over the lines that `getline` delivers. -/
def trainLoop {α : Type} [Field α] (cfg : Config α) (st : Training α)
    (lines : List (List Char)) : Except String (Training α) :=
  lines.foldlM (trainStep cfg) st

/-! ## `main`: the derivation of the log-probabilities -/

/-- The trained model that the test loop reads. -/
structure Model (α : Type) where
  word_probability_spam : List α
  word_probability_ham : List α
  num_spam : Int
  num_ham : Int

/-- The first derivation loop: `total_words_spam` and `total_words_ham`. -/
def totalWords {α : Type} [Field α] (cfg : Config α) (st : Training α) : α × α :=
  forLoop (fun i t => (t.1 + st.num_words_spam.getD i 0, t.2 + st.num_words_ham.getD i 0))
    0 cfg.WORDS_SET_SIZE (0, 0)

/-- The second derivation loop: `word_probability_spam` and
`word_probability_ham`, both starting as `WORDS_SET_SIZE` zeros. -/
def wordProbability {α : Type} [Field α] (ln : α → α) (cfg : Config α) (st : Training α) :
    List α × List α :=
  let t := totalWords cfg st
  forLoop
    (fun i w => (w.1.set i (ln (st.num_words_spam.getD i 0 / t.1)),
                 w.2.set i (ln (st.num_words_ham.getD i 0 / t.2))))
    0 cfg.WORDS_SET_SIZE
    (List.replicate cfg.WORDS_SET_SIZE 0, List.replicate cfg.WORDS_SET_SIZE 0)

/-- The model derived after the training loop. -/
def deriveModel {α : Type} [Field α] (ln : α → α) (cfg : Config α) (st : Training α) :
    Model α :=
  { word_probability_spam := (wordProbability ln cfg st).1
    word_probability_ham := (wordProbability ln cfg st).2
    num_spam := st.num_spam
    num_ham := st.num_ham }

/-! ## `main`: the test loop -/

/-- The seven counters of the test loop. -/
structure Counters where
  num_test_email : Int
  num_ham_in_test : Int
  num_spam_in_test : Int
  ham_predict_as_ham : Int
  spam_predict_as_spam : Int
  ham_predict_as_spam : Int
  spam_predict_as_ham : Int
deriving DecidableEq, Repr

/-- The counters in front of the test loop. -/
def Counters.init : Counters :=
  { num_test_email := 0, num_ham_in_test := 0, num_spam_in_test := 0,
    ham_predict_as_ham := 0, spam_predict_as_spam := 0,
    ham_predict_as_spam := 0, spam_predict_as_ham := 0 }

/-- The local `log_ratio` of the test loop for the parsed record `e`. -/
def log_ratio {α : Type} [Field α] (ln : α → α) (cfg : Config α) (m : Model α)
    (e : Email α) : α :=
  forLoop
    (fun i r => r + (m.word_probability_spam.getD i 0 * e.wordsFrequency.getD i 0
                      - m.word_probability_ham.getD i 0 * e.wordsFrequency.getD i 0))
    0 cfg.WORDS_SET_SIZE 0
  + (ln (m.num_spam : α) - ln (m.num_ham : α))

/-- The counting statements at the end of the body of the test loop, for the
parsed record `e` and its `log_ratio` `r`. -/
def tally {α : Type} [LinearOrderedField α] (e : Email α) (r : α) (c : Counters) : Counters :=
  let c1 : Counters :=
    if e.isHam = 0 then { c with num_ham_in_test := c.num_ham_in_test + 1 }
    else { c with num_spam_in_test := c.num_spam_in_test + 1 }
  let c2 : Counters :=
    if r < 0 ∧ e.isHam ≠ 0 then { c1 with ham_predict_as_ham := c1.ham_predict_as_ham + 1 }
    else c1
  let c3 : Counters :=
    if r < 0 ∧ e.isHam = 0 then { c2 with spam_predict_as_ham := c2.spam_predict_as_ham + 1 }
    else c2
  let c4 : Counters :=
    if 0 < r ∧ e.isHam ≠ 0 then { c3 with ham_predict_as_spam := c3.ham_predict_as_spam + 1 }
    else c3
  if 0 < r ∧ e.isHam = 0 then { c4 with spam_predict_as_spam := c4.spam_predict_as_spam + 1 }
  else c4

/-- The variables of `main` that the test loop updates. -/
structure Testing (α : Type) where
  my_email : Email α
  counters : Counters

/-- The body of the test loop for the line `email_data`. -/
def testStep {α : Type} [LinearOrderedField α] (ln : α → α) (cfg : Config α) (m : Model α)
    (st : Testing α) (email_data : List Char) : Testing α :=
  let e := st.my_email.setEmailData cfg email_data
  let c := { st.counters with num_test_email := st.counters.num_test_email + 1 }
  { my_email := e, counters := tally e (log_ratio ln cfg m e) c }

/-- The test loop over the lines that `getline` delivers. -/
def testLoop {α : Type} [LinearOrderedField α] (ln : α → α) (cfg : Config α) (m : Model α)
    (st : Testing α) (lines : List (List Char)) : Testing α :=
  lines.foldl (testStep ln cfg m) st

/-! ## `main`: the report -/

/-- The numbers that `main` prints, in the order of the output. -/
structure Report (α : Type) where
  training_emails : Int
  training_spam : Int
  training_ham : Int
  test_emails : Int
  test_spam : Int
  test_ham : Int
  ham_predicted_as_ham : Int
  spam_predicted_as_spam : Int
  spam_predicted_as_ham : Int
  ham_predicted_as_spam : Int
  accuracy : α

/-- The output statements of `main`. -/
def report {α : Type} [Field α] (st : Training α) (c : Counters) : Report α :=
  { training_emails := st.num_ham + st.num_spam
    training_spam := st.num_spam
    training_ham := st.num_ham
    test_emails := c.num_test_email
    test_spam := c.num_spam_in_test
    test_ham := c.num_ham_in_test
    ham_predicted_as_ham := c.ham_predict_as_ham
    spam_predicted_as_spam := c.spam_predict_as_spam
    spam_predicted_as_ham := c.spam_predict_as_ham
    ham_predicted_as_spam := c.ham_predict_as_spam
    accuracy := ((c.ham_predict_as_ham + c.spam_predict_as_spam : Int) : α) * 1 /
      (c.num_test_email : α) * 100 }

/-- The program `main` on the lines of the training file and of the test
file, as the two reading loops deliver them. -/
def main {α : Type} [LinearOrderedField α] (ln : α → α) (cfg : Config α)
    (training test : List (List Char)) : Except String (Report α) := do
  let st ← trainLoop cfg (Training.init cfg) training
  let m := deriveModel ln cfg st
  let t := testLoop ln cfg m { my_email := st.my_email, counters := Counters.init } test
  pure (report st t.counters)

/-! ## Well-formed input lines -/

/-- The character of a decimal digit. -/
def digitChar (d : Fin 10) : Char := Char.ofNat (48 + d.val)

/-- The number that a run of decimal digits denotes, most significant first. -/
def digitsNat (ds : List (Fin 10)) : Nat := ds.foldl (fun n d => 10 * n + d.val) 0

/-- A decimal numeral: an optional minus sign, at least one integer digit and
an optional fraction. -/
structure Decimal where
  neg : Bool
  ip : List (Fin 10)
  fp : List (Fin 10)
  ip_ne : ip ≠ []

/-- The text of a numeral, as it stands in a data file. -/
def Decimal.text (d : Decimal) : List Char :=
  (if d.neg then ['-'] else []) ++
    (d.ip.map digitChar ++ (if d.fp = [] then [] else '.' :: d.fp.map digitChar))

/-- The number that a numeral denotes. -/
def Decimal.value {α : Type} [Field α] (d : Decimal) : α :=
  if d.neg then -((digitsNat d.ip : α) + (digitsNat d.fp : α) / 10 ^ d.fp.length)
  else (digitsNat d.ip : α) + (digitsNat d.fp : α) / 10 ^ d.fp.length

/-- Tokens joined by single commas. -/
def joinComma : List (List Char) → List Char
  | [] => []
  | [t] => t
  | t :: u :: ts => t ++ ',' :: joinComma (u :: ts)

/-- A well-formed record: the numerals of the word frequencies and the label
`0` (spam) or `1` (ham). -/
structure Record where
  freq : List Decimal
  label : Fin 2

/-- The text of the label of a record. -/
def Record.labelText (r : Record) : List Char := if r.label = 0 then ['0'] else ['1']

/-- The line of a record: its numerals and its label, joined by commas. -/
def Record.line (r : Record) : List Char :=
  joinComma (r.freq.map Decimal.text ++ [r.labelText])

/-- The feature vector of a record: each frequency plus `OFF_SET`. -/
def Record.features {α : Type} [Field α] (cfg : Config α) (r : Record) : List α :=
  r.freq.map (fun d => d.value + cfg.OFF_SET)

/-- The class invariant of `Email` under the constants `cfg`: the object was
built for `WORDS_SET_SIZE` words and its vector has that many entries. -/
def Email.Sized {α : Type} (cfg : Config α) (e : Email α) : Prop :=
  e.word_set_size_ = cfg.WORDS_SET_SIZE ∧ e.words_frequency_.length = cfg.WORDS_SET_SIZE

/-- A record with as many frequencies as the word set has words. -/
def Record.Sized {α : Type} (cfg : Config α) (r : Record) : Prop :=
  r.freq.length = cfg.WORDS_SET_SIZE

/-! ## Per-class sums over a list of records -/

/-- The number of records with the label `l`. -/
def classCount (l : Fin 2) (rs : List Record) : Int :=
  ((rs.filter (fun r => r.label = l)).length : Int)

/-- The sum of `features[i]` over the records with the label `l`. -/
def classTotal {α : Type} [Field α] (cfg : Config α) (l : Fin 2) (rs : List Record)
    (i : Nat) : α :=
  ((rs.filter (fun r => r.label = l)).map (fun r => (r.features cfg).getD i 0)).sum

/-! ## Sample inputs -/

/-- The numeral `0`. -/
def Decimal.zero : Decimal := { neg := false, ip := [0], fp := [], ip_ne := by simp }

/-- The numeral `1`. -/
def Decimal.one : Decimal := { neg := false, ip := [1], fp := [], ip_ne := by simp }

/-- The record whose `K` frequencies are all the numeral `0`. -/
def Record.zeros (K : Nat) (label : Fin 2) : Record :=
  { freq := List.replicate K Decimal.zero, label := label }

/-- The constants of the end-to-end scenario: two words, offset `0.01`. -/
def Config.small (α : Type) [Field α] : Config α :=
  { WORDS_SET_SIZE := 2, OFF_SET := 1 / 100 }

/-- The record `1,0` with the given label. -/
def Record.oneZero (label : Fin 2) : Record :=
  { freq := [Decimal.one, Decimal.zero], label := label }

/-- The record `0,1` with the given label. -/
def Record.zeroOne (label : Fin 2) : Record :=
  { freq := [Decimal.zero, Decimal.one], label := label }

/-- The training set of the end-to-end scenario: `1,0` as spam and `0,1` as
ham. -/
def Record.sampleTraining : List Record := [Record.oneZero 0, Record.zeroOne 1]

/-- A training set with one spam record and one ham record, both with `K`
frequencies `0`. -/
def Record.tieTraining (K : Nat) : List Record := [Record.zeros K 0, Record.zeros K 1]

/-! ## Sequences of calls, scaled records, files -/

/-- The object that `new Email()` gives after the calls of `setEmailData` on
the strings `lines`, in that order. -/
def Email.afterCalls {α : Type} [Field α] (cfg : Config α) (lines : List (List Char)) :
    Email α :=
  lines.foldl (fun e l => e.setEmailData cfg l) (Email.new cfg)

/-- A numeral that is not negative. -/
def Decimal.NonNeg (d : Decimal) : Prop := d.neg = false

/-- The value of the local `log_ratio` after the `for` loop of the test loop,
before the term of the class counts is added. -/
def log_ratio_features {α : Type} [Field α] (cfg : Config α) (m : Model α) (e : Email α) : α :=
  forLoop
    (fun i r => r + (m.word_probability_spam.getD i 0 * e.wordsFrequency.getD i 0
                      - m.word_probability_ham.getD i 0 * e.wordsFrequency.getD i 0))
    0 cfg.WORDS_SET_SIZE 0

/-- The record `e` with every feature multiplied by `k`. -/
def Email.scaled {α : Type} [Field α] (k : α) (e : Email α) : Email α :=
  { e with words_frequency_ := e.words_frequency_.map (fun x => k * x) }

/-- A model with two words in which the two classes agree in everything. -/
def Model.tie (α : Type) [Field α] : Model α :=
  { word_probability_spam := [0, 0], word_probability_ham := [0, 0], num_spam := 1, num_ham := 1 }

/-- A model with two words that only the first word tells apart. -/
def Model.firstWord (α : Type) [Field α] : Model α :=
  { word_probability_spam := [1, 0], word_probability_ham := [0, 0], num_spam := 1, num_ham := 1 }

/-- The `int` that a numeral denotes when it is read as a label: its integer
part with its sign, brought into the range of `int`. -/
def Decimal.intValue (d : Decimal) : Int :=
  max INT_MIN (min INT_MAX (if d.neg then -(digitsNat d.ip : Int) else (digitsNat d.ip : Int)))

/-- The values that `email_data` takes in the iterations of a reading loop
`while(!file.eof()){ getline(file, email_data); ... }` of `main`, for at most
`fuel` iterations. -/
def readLoop : Nat → IStream → List Char → List (List Char)
  | 0, _, _ => []
  | fuel + 1, file, email_data =>
    if file.eofbit then []
    else
      let r := getline file email_data '\n'
      r.2 :: readLoop fuel r.1 r.2

/-- The strings that a reading loop of `main` passes to `setEmailData` for a
file with the contents `text`.  Every iteration but the last extracts a
newline, so `text.length + 1` iterations are enough. -/
def fileRecords (text : List Char) : List (List Char) :=
  readLoop (text.length + 1) (IStream.ofString text) []

/-- The contents of a file with the given lines, each ended by a newline. -/
def fileText : List (List Char) → List Char
  | [] => []
  | l :: ls => l ++ '\n' :: fileText ls

/-- The program `main` on the contents of `training_set.data` and of
`test_set.data`, when both files can be opened; `email_data` is erased by the
first `getline` of each loop, since a newly opened stream is good. -/
def mainOnFiles {α : Type} [LinearOrderedField α] (ln : α → α) (cfg : Config α)
    (trainingText testText : List Char) : Except String (Report α) :=
  main ln cfg (fileRecords trainingText) (fileRecords testText)

/-! ## Special values of `double` and the literal loop bound

The definitions above compute in a field and bound the loops of `main` by
`WORDS_SET_SIZE`.  The definitions of this section refine the derivation and
the test loop in two respects: a `double` may be an infinity or NaN, and the
three `for` loops run to the literal `57` that `main` writes, with every
indexed read and write checked against the length of its vector (an access
past the end has no defined result and is `none`).  Rounding, overflow and the
sign of a zero are left out; every zero that these loops divide by is the sum
of a vector that starts at `+0`. -/

/-- A `double`: a number, an infinity (`negative` tells its sign) or NaN. -/
inductive Double (α : Type) where
  | num (x : α)
  | inf (negative : Bool)
  | nan

/-- The sum of two `double`s: NaN is absorbing and `inf - inf` is NaN. -/
def Double.add {α : Type} [LinearOrderedField α] : Double α → Double α → Double α
  | .num x, .num y => .num (x + y)
  | .num _, .inf s => .inf s
  | .inf s, .num _ => .inf s
  | .inf s, .inf t => if s = t then .inf s else .nan
  | .nan, _ => .nan
  | .num _, .nan => .nan
  | .inf _, .nan => .nan

/-- The opposite of a `double`. -/
def Double.neg {α : Type} [LinearOrderedField α] : Double α → Double α
  | .num x => .num (-x)
  | .inf s => .inf (!s)
  | .nan => .nan

/-- The difference of two `double`s. -/
def Double.sub {α : Type} [LinearOrderedField α] (a b : Double α) : Double α :=
  a.add b.neg

/-- The product of two `double`s: NaN is absorbing and `0 * inf` is NaN. -/
def Double.mul {α : Type} [LinearOrderedField α] : Double α → Double α → Double α
  | .num x, .num y => .num (x * y)
  | .num x, .inf s => if x = 0 then .nan else .inf (xor (decide (x < 0)) s)
  | .inf s, .num x => if x = 0 then .nan else .inf (xor s (decide (x < 0)))
  | .inf s, .inf t => .inf (xor s t)
  | .nan, _ => .nan
  | .num _, .nan => .nan
  | .inf _, .nan => .nan

/-- The quotient of two `double`s: `0/0` and `inf/inf` are NaN, a non-zero
number over zero is an infinity. -/
def Double.div {α : Type} [LinearOrderedField α] : Double α → Double α → Double α
  | .num x, .num y =>
    if y = 0 then (if x = 0 then .nan else .inf (decide (x < 0))) else .num (x / y)
  | .num _, .inf _ => .num 0
  | .inf s, .num y => .inf (xor s (decide (y < 0)))
  | .inf _, .inf _ => .nan
  | .nan, _ => .nan
  | .num _, .nan => .nan
  | .inf _, .nan => .nan

/-- The function `log` of `math.h` on a `double`, for the logarithm `ln` of
the positive numbers: `log(0)` is `-inf`, the logarithm of a negative number,
of `-inf` and of NaN is NaN. -/
def Double.log {α : Type} [LinearOrderedField α] (ln : α → α) : Double α → Double α
  | .num x => if x < 0 then .nan else if x = 0 then .inf true else .num (ln x)
  | .inf s => if s then .nan else .inf false
  | .nan => .nan

/-- The comparison `x < 0`; it is false for NaN. -/
def Double.isNeg {α : Type} [LinearOrderedField α] : Double α → Bool
  | .num x => decide (x < 0)
  | .inf s => s
  | .nan => false

/-- The comparison `x > 0`; it is false for NaN. -/
def Double.isPos {α : Type} [LinearOrderedField α] : Double α → Bool
  | .num x => decide (0 < x)
  | .inf s => !s
  | .nan => false

/-- The conversion `(double)n` of an `int`. -/
def Double.ofInt {α : Type} [LinearOrderedField α] (n : Int) : Double α := .num (n : α)

/-- The trained model with `double` entries. -/
structure ModelD (α : Type) where
  word_probability_spam : List (Double α)
  word_probability_ham : List (Double α)
  num_spam : Int
  num_ham : Int

/-- The first derivation loop of `main`, `for(int i=0;i<57;i++)`, with checked
reads of `num_words_spam[i]` and `num_words_ham[i]`. -/
def totalWordsD {α : Type} [LinearOrderedField α] (st : Training α) :
    Option (Double α × Double α) :=
  forLoop
    (fun i (t : Option (Double α × Double α)) =>
      match t, st.num_words_spam[i]?, st.num_words_ham[i]? with
      | some t, some a, some b => some (t.1.add (.num a), t.2.add (.num b))
      | _, _, _ => none)
    0 57 (some (.num 0, .num 0))

/-- The second derivation loop of `main`, `for(int i=0;i<57;i++)`, with checked
reads and checked writes; the two vectors start as `WORDS_SET_SIZE` zeros. -/
def wordProbabilityD {α : Type} [LinearOrderedField α] (ln : α → α) (cfg : Config α)
    (st : Training α) : Option (List (Double α) × List (Double α)) :=
  match totalWordsD st with
  | none => none
  | some t =>
    forLoop
      (fun i (w : Option (List (Double α) × List (Double α))) =>
        match w, st.num_words_spam[i]?, st.num_words_ham[i]? with
        | some w, some a, some b =>
          if i < w.1.length ∧ i < w.2.length then
            some (w.1.set i (Double.log ln ((Double.num a).div t.1)),
                  w.2.set i (Double.log ln ((Double.num b).div t.2)))
          else none
        | _, _, _ => none)
      0 57
      (some (List.replicate cfg.WORDS_SET_SIZE (.num 0),
             List.replicate cfg.WORDS_SET_SIZE (.num 0)))

/-- The model derived after the training loop, when the derivation stays
within its vectors. -/
def deriveModelD {α : Type} [LinearOrderedField α] (ln : α → α) (cfg : Config α)
    (st : Training α) : Option (ModelD α) :=
  match wordProbabilityD ln cfg st with
  | none => none
  | some w =>
    some { word_probability_spam := w.1, word_probability_ham := w.2,
           num_spam := st.num_spam, num_ham := st.num_ham }

/-- The local `log_ratio` of the test loop for the parsed record `e`: the
scoring loop `for(int i=0;i<57;i++)` with checked reads, then the term of the
class counts. -/
def log_ratioD {α : Type} [LinearOrderedField α] (ln : α → α) (m : ModelD α)
    (e : Email α) : Option (Double α) :=
  match forLoop
      (fun i (r : Option (Double α)) =>
        match r, m.word_probability_spam[i]?, m.word_probability_ham[i]?,
            e.wordsFrequency[i]? with
        | some r, some ps, some ph, some f =>
          some (r.add ((ps.mul (.num f)).sub (ph.mul (.num f))))
        | _, _, _, _ => none)
      0 57 (some (.num 0)) with
  | none => none
  | some r =>
    some (r.add ((Double.log ln (Double.ofInt m.num_spam)).sub
      (Double.log ln (Double.ofInt m.num_ham))))

/-- The counting statements at the end of the body of the test loop, for the
parsed record `e` and a `log_ratio` `r` that may be an infinity or NaN. -/
def tallyD {α : Type} [LinearOrderedField α] (e : Email α) (r : Double α) (c : Counters) :
    Counters :=
  let c1 : Counters :=
    if e.isHam = 0 then { c with num_ham_in_test := c.num_ham_in_test + 1 }
    else { c with num_spam_in_test := c.num_spam_in_test + 1 }
  let c2 : Counters :=
    if r.isNeg = true ∧ e.isHam ≠ 0 then
      { c1 with ham_predict_as_ham := c1.ham_predict_as_ham + 1 }
    else c1
  let c3 : Counters :=
    if r.isNeg = true ∧ e.isHam = 0 then
      { c2 with spam_predict_as_ham := c2.spam_predict_as_ham + 1 }
    else c2
  let c4 : Counters :=
    if r.isPos = true ∧ e.isHam ≠ 0 then
      { c3 with ham_predict_as_spam := c3.ham_predict_as_spam + 1 }
    else c3
  if r.isPos = true ∧ e.isHam = 0 then
    { c4 with spam_predict_as_spam := c4.spam_predict_as_spam + 1 }
  else c4

/-- The body of the test loop for the line `email_data`, when the scoring loop
stays within its vectors. -/
def testStepD {α : Type} [LinearOrderedField α] (ln : α → α) (cfg : Config α) (m : ModelD α)
    (st : Testing α) (email_data : List Char) : Option (Testing α) :=
  let e := st.my_email.setEmailData cfg email_data
  let c := { st.counters with num_test_email := st.counters.num_test_email + 1 }
  match log_ratioD ln m e with
  | none => none
  | some r => some { my_email := e, counters := tallyD e r c }

/-- The model with `double` entries that has the numbers of `m` as entries. -/
def ModelD.ofModel {α : Type} (m : Model α) : ModelD α :=
  { word_probability_spam := m.word_probability_spam.map Double.num
    word_probability_ham := m.word_probability_ham.map Double.num
    num_spam := m.num_spam
    num_ham := m.num_ham }

/-- A model for the `57` words of `main` whose log-probabilities are all zero,
with two spam records against one ham record. -/
def Model.flat (α : Type) [Field α] : Model α :=
  { word_probability_spam := List.replicate 57 0, word_probability_ham := List.replicate 57 0,
    num_spam := 2, num_ham := 1 }

/-! ## Lemmas on characters and numerals -/

theorem isdigit_digitChar : ∀ d : Fin 10, isdigit (digitChar d) = true := by decide

theorem digitValue_digitChar : ∀ d : Fin 10, digitValue (digitChar d) = d.val := by decide

theorem digitChar_ne_comma : ∀ d : Fin 10, digitChar d ≠ ',' := by decide

theorem digitChar_ne_minus : ∀ d : Fin 10, digitChar d ≠ '-' := by decide

theorem digitChar_ne_plus : ∀ d : Fin 10, digitChar d ≠ '+' := by decide

theorem isspace_digitChar : ∀ d : Fin 10, isspace (digitChar d) = false := by decide

theorem digitsValue_map_aux (ds : List (Fin 10)) (n : Nat) :
    (ds.map digitChar).foldl (fun n c => 10 * n + digitValue c) n
      = ds.foldl (fun n d => 10 * n + d.val) n := by
  induction ds generalizing n with
  | nil => rfl
  | cons d ds ih => simp only [List.map_cons, List.foldl_cons, digitValue_digitChar, ih]

theorem digitsValue_map (ds : List (Fin 10)) :
    digitsValue (ds.map digitChar) = digitsNat ds :=
  digitsValue_map_aux ds 0

theorem takeWhile_digits (ds : List (Fin 10)) (rest : List Char) :
    (ds.map digitChar ++ rest).takeWhile isdigit
      = ds.map digitChar ++ rest.takeWhile isdigit := by
  induction ds with
  | nil => rfl
  | cons d ds ih => simp [List.takeWhile_cons, isdigit_digitChar, ih]

theorem dropWhile_digits (ds : List (Fin 10)) (rest : List Char) :
    (ds.map digitChar ++ rest).dropWhile isdigit = rest.dropWhile isdigit := by
  induction ds with
  | nil => rfl
  | cons d ds ih => simp [List.dropWhile_cons, isdigit_digitChar, ih]

theorem fracText_takeWhile (fp : List (Fin 10)) :
    (if fp = [] then [] else '.' :: fp.map digitChar).takeWhile isdigit = [] := by
  split
  · rfl
  · rw [List.takeWhile_cons]; simp only [show isdigit '.' = false from by decide]; rfl

theorem fracText_dropWhile (fp : List (Fin 10)) :
    (if fp = [] then [] else '.' :: fp.map digitChar).dropWhile isdigit
      = (if fp = [] then [] else '.' :: fp.map digitChar) := by
  split
  · rfl
  · rw [List.dropWhile_cons]; simp only [show isdigit '.' = false from by decide]; rfl

theorem takeWhile_digits_all (ds : List (Fin 10)) :
    (ds.map digitChar).takeWhile isdigit = ds.map digitChar := by
  have h := takeWhile_digits ds []
  simpa using h

/-- The digits of a numeral body are read back. -/
theorem extract_body {α : Type} [Field α] (i0 : Fin 10) (ips fp : List (Fin 10)) :
    let body := (i0 :: ips).map digitChar ++ (if fp = [] then [] else '.' :: fp.map digitChar)
    body.takeWhile isdigit = (i0 :: ips).map digitChar ∧
    (match body.dropWhile isdigit with
      | [] => []
      | d :: r => if d = '.' then r.takeWhile isdigit else []) = fp.map digitChar := by
  intro body
  constructor
  · show ((i0 :: ips).map digitChar ++ _).takeWhile isdigit = _
    rw [takeWhile_digits, fracText_takeWhile, List.append_nil]
  · show (match ((i0 :: ips).map digitChar ++ _).dropWhile isdigit with
      | [] => []
      | d :: r => if d = '.' then r.takeWhile isdigit else []) = _
    rw [dropWhile_digits, fracText_dropWhile]
    by_cases h : fp = []
    · simp [h]
    · simp [h, takeWhile_digits_all]

theorem extractDouble_text {α : Type} [Field α] (d : Decimal) :
    (extractDouble d.text : Option α) = some d.value := by
  obtain ⟨neg, ip, fp, hip⟩ := d
  cases ip with
  | nil => exact absurd rfl hip
  | cons i0 ips =>
    have hb := extract_body (α := α) i0 ips fp
    simp only at hb
    obtain ⟨h1, h2⟩ := hb
    cases neg with
    | true =>
      have ht : Decimal.text ⟨true, i0 :: ips, fp, hip⟩
          = '-' :: ((i0 :: ips).map digitChar ++ (if fp = [] then [] else '.' :: fp.map digitChar)) := by
        simp [Decimal.text]
      rw [ht]
      unfold extractDouble
      rw [List.dropWhile_cons]
      simp only [show isspace '-' = false from by decide]
      simp only [splitSign, if_true, h1, h2, Bool.false_eq_true, if_false]
      have hv := digitsValue_map (i0 :: ips)
      simp only [List.map_cons] at hv
      simp [Decimal.value, digitsValue_map, hv]
    | false =>
      have ht : Decimal.text ⟨false, i0 :: ips, fp, hip⟩
          = digitChar i0 :: (ips.map digitChar ++ (if fp = [] then [] else '.' :: fp.map digitChar)) := by
        simp [Decimal.text]
      have h1' : (digitChar i0 :: (ips.map digitChar ++ (if fp = [] then [] else '.' :: fp.map digitChar))).takeWhile isdigit
          = (i0 :: ips).map digitChar := h1
      rw [ht]
      unfold extractDouble
      rw [List.dropWhile_cons]
      simp only [isspace_digitChar, Bool.false_eq_true, if_false]
      simp only [splitSign, digitChar_ne_minus, digitChar_ne_plus, if_false]
      have h2' : (match (digitChar i0 :: (ips.map digitChar ++ (if fp = [] then [] else '.' :: fp.map digitChar))).dropWhile isdigit with
          | [] => []
          | d :: r => if d = '.' then r.takeWhile isdigit else []) = fp.map digitChar := h2
      simp only [h1', h2']
      have hv := digitsValue_map (i0 :: ips)
      simp only [List.map_cons] at hv
      simp [Decimal.value, digitsValue_map, hv]

/-! ## Lemmas on `getline` and on the loop of `setEmailData` -/

theorem takeWhile_ne_delim (tok rest : List Char) (h : ∀ c ∈ tok, c ≠ ',') :
    (tok ++ ',' :: rest).takeWhile (fun c => c != ',') = tok := by
  induction tok with
  | nil => simp
  | cons a t ih =>
    have ha : a ≠ ',' := h a (List.mem_cons_self a t)
    have ht : ∀ c ∈ t, c ≠ ',' := fun c hc => h c (List.mem_cons_of_mem a hc)
    simp [List.takeWhile_cons, ha, ih ht]

theorem dropWhile_ne_delim (tok rest : List Char) (h : ∀ c ∈ tok, c ≠ ',') :
    (tok ++ ',' :: rest).dropWhile (fun c => c != ',') = ',' :: rest := by
  induction tok with
  | nil => simp
  | cons a t ih =>
    have ha : a ≠ ',' := h a (List.mem_cons_self a t)
    have ht : ∀ c ∈ t, c ≠ ',' := fun c hc => h c (List.mem_cons_of_mem a hc)
    simp [List.dropWhile_cons, ha, ih ht]

theorem takeWhile_no_delim (tok : List Char) (h : ∀ c ∈ tok, c ≠ ',') :
    tok.takeWhile (fun c => c != ',') = tok := by
  induction tok with
  | nil => simp
  | cons a t ih =>
    have ha : a ≠ ',' := h a (List.mem_cons_self a t)
    have ht : ∀ c ∈ t, c ≠ ',' := fun c hc => h c (List.mem_cons_of_mem a hc)
    simp [List.takeWhile_cons, ha, ih ht]

theorem dropWhile_no_delim (tok : List Char) (h : ∀ c ∈ tok, c ≠ ',') :
    tok.dropWhile (fun c => c != ',') = [] := by
  induction tok with
  | nil => simp
  | cons a t ih =>
    have ha : a ≠ ',' := h a (List.mem_cons_self a t)
    have ht : ∀ c ∈ t, c ≠ ',' := fun c hc => h c (List.mem_cons_of_mem a hc)
    simp [List.dropWhile_cons, ha, ih ht]

/-- Reading a token that a comma follows. -/
theorem getline_token (tok rest s : List Char) (h : ∀ c ∈ tok, c ≠ ',') :
    getline (IStream.ofString (tok ++ ',' :: rest)) s ',' = (IStream.ofString rest, tok) := by
  simp [getline, IStream.ofString, IStream.good, takeWhile_ne_delim tok rest h,
    dropWhile_ne_delim tok rest h]

/-- Reading the last token of the data. -/
theorem getline_last (tok s : List Char) (h : ∀ c ∈ tok, c ≠ ',') :
    getline (IStream.ofString tok) s ','
      = ({ buf := [], eofbit := true, failbit := tok.isEmpty }, tok) := by
  simp [getline, IStream.ofString, IStream.good, takeWhile_no_delim tok h,
    dropWhile_no_delim tok h]

theorem Decimal.text_no_comma (d : Decimal) : ∀ c ∈ d.text, c ≠ ',' := by
  intro c hc
  simp only [Decimal.text, List.mem_append, List.mem_map] at hc
  rcases hc with hc | hc | hc
  · split at hc
    · simp at hc; rw [hc]; decide
    · simp at hc
  · obtain ⟨x, _, rfl⟩ := hc; exact digitChar_ne_comma x
  · split at hc
    · simp at hc
    · simp only [List.mem_cons, List.mem_map] at hc
      rcases hc with rfl | ⟨x, _, rfl⟩
      · decide
      · exact digitChar_ne_comma x

theorem Record.labelText_no_comma (r : Record) : ∀ c ∈ r.labelText, c ≠ ',' := by
  intro c hc
  unfold Record.labelText at hc
  split at hc <;> simp at hc <;> rw [hc] <;> decide

theorem Record.extractInt_labelText (r : Record) :
    extractInt r.labelText = some (r.label.val : Int) := by
  have h : ∀ l : Fin 2, extractInt (if l = 0 then ['0'] else ['1']) = some (l.val : Int) := by
    decide
  exact h r.label

theorem joinComma_cons (t : List Char) (ts : List (List Char)) (h : ts ≠ []) :
    joinComma (t :: ts) = t ++ ',' :: joinComma ts := by
  cases ts with
  | nil => exact absurd rfl h
  | cons u us => rfl

theorem forLoop_succ_last {σ : Type} (body : Nat → σ → σ) :
    ∀ (n i : Nat) (st : σ),
      forLoop body i (n + 1) st = body (i + n) (forLoop body i n st) := by
  intro n
  induction n with
  | zero => intro i st; rfl
  | succ n ih =>
    intro i st
    rw [forLoop, ih (i + 1) (body i st), forLoop]
    congr 1
    omega

/-- One iteration on a frequency token that a comma follows. -/
theorem setEmailDataBody_freq {α : Type} [Field α] (cfg : Config α) (i : Nat)
    (tok more s : List Char) (e : Email α) (v : α)
    (hi : i < e.word_set_size_) (hlen : e.words_frequency_.length = e.word_set_size_)
    (htok : ∀ c ∈ tok, c ≠ ',') (hv : (extractDouble tok : Option α) = some v) :
    setEmailDataBody cfg i { ss := IStream.ofString (tok ++ ',' :: more), s := s, email := e }
      = { ss := IStream.ofString more, s := tok,
          email := { e with words_frequency_ := e.words_frequency_.set i (v + cfg.OFF_SET),
                            num_words_ := e.num_words_ + (v + cfg.OFF_SET) } } := by
  have hne : i ≠ e.word_set_size_ := Nat.ne_of_lt hi
  have hil : i < e.words_frequency_.length := by omega
  unfold setEmailDataBody
  simp only [getline_token tok more s htok, hv, hne, if_false]
  simp [List.getD_eq_getElem?_getD, List.getElem?_set, hil]

/-- The last iteration, on the label token. -/
theorem setEmailDataBody_label {α : Type} [Field α] (cfg : Config α)
    (tok s : List Char) (e : Email α) (l : Int)
    (htok : ∀ c ∈ tok, c ≠ ',') (hl : extractInt tok = some l) :
    (setEmailDataBody cfg e.word_set_size_
        { ss := IStream.ofString tok, s := s, email := e }).email
      = { e with spam_or_ham_ := l } := by
  unfold setEmailDataBody
  simp only [getline_last tok s htok, hl, if_true]

/-- The iterations of `setEmailData` on the frequency tokens `ds`, starting at
index `i`, when the label token follows. -/
theorem setEmailData_loop_freq {α : Type} [Field α] (cfg : Config α) (lab : List Char) :
    ∀ (ds : List Decimal) (i : Nat) (s : List Char) (e : Email α),
      i + ds.length = e.word_set_size_ →
      e.words_frequency_.length = e.word_set_size_ →
      ∃ s', forLoop (setEmailDataBody cfg) i ds.length
          { ss := IStream.ofString (joinComma (ds.map Decimal.text ++ [lab])), s := s, email := e }
        = { ss := IStream.ofString lab, s := s',
            email := { e with
              words_frequency_ :=
                e.words_frequency_.take i ++ ds.map (fun d => d.value + cfg.OFF_SET)
              num_words_ :=
                e.num_words_ + (ds.map (fun d => d.value + cfg.OFF_SET)).sum } } := by
  intro ds
  induction ds with
  | nil =>
    intro i s e hi hlen
    refine ⟨s, ?_⟩
    have : e.words_frequency_.take i = e.words_frequency_ :=
      List.take_of_length_le (by simp at hi; omega)
    simp [forLoop, joinComma, this]
  | cons d ds ih =>
    intro i s e hi hlen
    simp only [List.length_cons] at hi
    have hilt : i < e.word_set_size_ := by omega
    have hjoin : joinComma ((d :: ds).map Decimal.text ++ [lab])
        = d.text ++ ',' :: joinComma (ds.map Decimal.text ++ [lab]) := by
      rw [List.map_cons, List.cons_append]
      exact joinComma_cons _ _ (by simp)
    rw [List.length_cons, forLoop, hjoin,
      setEmailDataBody_freq cfg i d.text _ s e d.value hilt hlen d.text_no_comma
        (extractDouble_text d)]
    obtain ⟨s', hs'⟩ := ih (i + 1) d.text
      { e with words_frequency_ := e.words_frequency_.set i (d.value + cfg.OFF_SET),
               num_words_ := e.num_words_ + (d.value + cfg.OFF_SET) }
      (by simp only; omega) (by simp only [List.length_set]; exact hlen)
    refine ⟨s', ?_⟩
    rw [hs']
    have hil : i < e.words_frequency_.length := by omega
    have htake : (e.words_frequency_.set i (d.value + cfg.OFF_SET)).take (i + 1)
        = e.words_frequency_.take i ++ [d.value + cfg.OFF_SET] := by
      have h0 : (e.words_frequency_.set i (d.value + cfg.OFF_SET)).take i
          = e.words_frequency_.take i := by
        rw [List.set_take, List.set_eq_of_length_le (by simp)]
      rw [List.take_succ, h0]
      simp [List.getElem?_set, hil]
    simp only [htake, List.map_cons, List.sum_cons, List.append_assoc, List.singleton_append,
      add_assoc]

/-- The effect of `setEmailData` on the line of a well-formed record, for an
object whose vector has `word_set_size_` entries. -/
theorem setEmailData_line {α : Type} [Field α] (cfg : Config α) (e : Email α) (r : Record)
    (hK : r.freq.length = e.word_set_size_)
    (hlen : e.words_frequency_.length = e.word_set_size_) :
    e.setEmailData cfg r.line
      = { word_set_size_ := e.word_set_size_
          words_frequency_ := r.features cfg
          spam_or_ham_ := (r.label.val : Int)
          num_words_ := e.num_words_ + (r.features cfg).sum } := by
  unfold Email.setEmailData Record.line
  obtain ⟨s', hs'⟩ := setEmailData_loop_freq cfg r.labelText r.freq 0 [] e
    (by simpa using hK) hlen
  have hsplit : ∀ (st : ParseState α),
      forLoop (setEmailDataBody cfg) 0 (e.word_set_size_ + 1) st
        = setEmailDataBody cfg e.word_set_size_
            (forLoop (setEmailDataBody cfg) 0 r.freq.length st) := by
    intro st
    rw [hK, forLoop_succ_last, Nat.zero_add]
  rw [hsplit, hs']
  have hl := setEmailDataBody_label cfg r.labelText s'
    { e with
      words_frequency_ :=
        e.words_frequency_.take 0 ++ r.freq.map (fun d => d.value + cfg.OFF_SET)
      num_words_ := e.num_words_ + (r.freq.map (fun d => d.value + cfg.OFF_SET)).sum }
    (r.label.val : Int) r.labelText_no_comma r.extractInt_labelText
  simp only at hl
  rw [hl]
  simp [Record.features]

/-! ## Lemmas on loops and on the class invariant -/

theorem forLoop_sum {α : Type} [Field α] (g : Nat → α) :
    ∀ (n : Nat) (a : α),
      forLoop (fun i r => r + g i) 0 n a = a + ∑ i in Finset.range n, g i := by
  intro n
  induction n with
  | zero => intro a; simp [forLoop]
  | succ n ih =>
    intro a
    rw [forLoop_succ_last, ih, Finset.sum_range_succ, Nat.zero_add, add_assoc]

theorem forLoop_pair {σ τ : Type} (f : Nat → σ → σ) (g : Nat → τ → τ) :
    ∀ (n i : Nat) (a : σ) (b : τ),
      forLoop (fun i (t : σ × τ) => (f i t.1, g i t.2)) i n (a, b)
        = (forLoop f i n a, forLoop g i n b) := by
  intro n
  induction n with
  | zero => intro i a b; rfl
  | succ n ih => intro i a b; simp only [forLoop, ih]

theorem forLoop_set {α : Type} (h : Nat → α) (z : α) (K : Nat) :
    ∀ n, n ≤ K →
      (forLoop (fun i (w : List α) => w.set i (h i)) 0 n (List.replicate K z)).length = K ∧
      ∀ i, i < n →
        (forLoop (fun i (w : List α) => w.set i (h i)) 0 n (List.replicate K z)).getD i z = h i := by
  intro n
  induction n with
  | zero => intro _; simp [forLoop]
  | succ n ih =>
    intro hn
    obtain ⟨hlen, hget⟩ := ih (by omega)
    rw [forLoop_succ_last, Nat.zero_add]
    refine ⟨by simp [hlen], ?_⟩
    intro i hi
    by_cases hin : i = n
    · subst hin
      have hlt : i < (forLoop (fun i (w : List α) => w.set i (h i)) 0 i
          (List.replicate K z)).length := by rw [hlen]; omega
      simp [List.getD_eq_getElem?_getD, List.getElem?_set, hlt]
    · have := hget i (by omega)
      rw [List.getD_eq_getElem?_getD] at this ⊢
      rw [List.getElem?_set_ne (by omega)]
      exact this

theorem Email.new_sized {α : Type} [Field α] (cfg : Config α) : (Email.new cfg).Sized cfg := by
  simp [Email.Sized, Email.new]

theorem setEmailDataBody_sized {α : Type} [Field α] (cfg : Config α) (i : Nat)
    (st : ParseState α) :
    (setEmailDataBody cfg i st).email.word_set_size_ = st.email.word_set_size_ ∧
    (setEmailDataBody cfg i st).email.words_frequency_.length
      = st.email.words_frequency_.length := by
  unfold setEmailDataBody
  by_cases h : i = st.email.word_set_size_
  · simp [h]
  · simp only [h, if_false]
    refine ⟨trivial, ?_⟩
    cases (extractDouble (getline st.ss st.s ',').2 : Option α) <;> simp

theorem forLoop_setEmailDataBody_sized {α : Type} [Field α] (cfg : Config α) :
    ∀ (n i : Nat) (st : ParseState α),
      (forLoop (setEmailDataBody cfg) i n st).email.word_set_size_ = st.email.word_set_size_ ∧
      (forLoop (setEmailDataBody cfg) i n st).email.words_frequency_.length
        = st.email.words_frequency_.length := by
  intro n
  induction n with
  | zero => intro i st; exact ⟨rfl, rfl⟩
  | succ n ih =>
    intro i st
    rw [forLoop]
    obtain ⟨h1, h2⟩ := ih (i + 1) (setEmailDataBody cfg i st)
    obtain ⟨h3, h4⟩ := setEmailDataBody_sized cfg i st
    exact ⟨h1.trans h3, h2.trans h4⟩

/-- The class invariant survives `setEmailData` on any string. -/
theorem Email.setEmailData_sized {α : Type} [Field α] (cfg : Config α) (e : Email α)
    (email_data : List Char) (he : e.Sized cfg) : (e.setEmailData cfg email_data).Sized cfg := by
  obtain ⟨h1, h2⟩ := forLoop_setEmailDataBody_sized cfg (e.word_set_size_ + 1) 0
    { ss := IStream.ofString email_data, s := [], email := e }
  exact ⟨h1.trans he.1, h2.trans he.2⟩

/-- The effect of `setEmailData` on the line of a well-formed record, under the
class invariant. -/
theorem setEmailData_record {α : Type} [Field α] (cfg : Config α) (e : Email α) (r : Record)
    (he : e.Sized cfg) (hr : r.Sized cfg) :
    e.setEmailData cfg r.line
      = { word_set_size_ := cfg.WORDS_SET_SIZE
          words_frequency_ := r.features cfg
          spam_or_ham_ := (r.label.val : Int)
          num_words_ := e.num_words_ + (r.features cfg).sum } := by
  rw [setEmailData_line cfg e r (hr.trans he.1.symm) (he.2.trans he.1.symm), he.1]

/-- The vector that `setEmailData` stores for `K` numerals, whatever text
follows them after the `K`-th comma. -/
theorem setEmailData_freq_tail {α : Type} [Field α] (cfg : Config α) (e : Email α)
    (ds : List Decimal) (lab : List Char) (he : e.Sized cfg)
    (hK : ds.length = cfg.WORDS_SET_SIZE) :
    (e.setEmailData cfg (joinComma (ds.map Decimal.text ++ [lab]))).words_frequency_
      = ds.map (fun d => d.value + cfg.OFF_SET) := by
  unfold Email.setEmailData
  obtain ⟨s', hs'⟩ := setEmailData_loop_freq cfg lab ds 0 [] e
    (by rw [Nat.zero_add, hK, he.1]) (he.2.trans he.1.symm)
  have hsplit : e.word_set_size_ + 1 = ds.length + 1 := by rw [hK, he.1]
  rw [hsplit, forLoop_succ_last, Nat.zero_add, hs']
  have hidx : ds.length = e.word_set_size_ := by rw [hK, he.1]
  rw [hidx]
  unfold setEmailDataBody
  simp

/-! ## Lemmas on the vector addition and on the training loop -/

theorem forLoop_push {α : Type} (g : Nat → α) :
    ∀ n, forLoop (fun i (ans : List α) => ans ++ [g i]) 0 n [] = (List.range n).map g := by
  intro n
  induction n with
  | zero => rfl
  | succ n ih => rw [forLoop_succ_last, ih, List.range_succ, List.map_append, Nat.zero_add]; rfl

/-- On vectors of equal length `operator+` returns the element-wise sum. -/
theorem operator_plus_eq {α : Type} [Field α] (A B : List α) (h : A.length = B.length) :
    operator_plus A B = Except.ok (List.zipWith (fun a b => a + b) A B) := by
  unfold operator_plus
  rw [if_neg (by simpa using h), forLoop_push]
  congr 1
  apply List.ext_getElem
  · simp [h]
  · intro i h1 h2
    simp only [List.length_map, List.length_range] at h1
    have hb : i < B.length := h ▸ h1
    simp [List.getD_eq_getElem?_getD, h1, hb]

theorem getD_zipWith_add {α : Type} [Field α] (A B : List α) (h : A.length = B.length)
    (i : Nat) :
    (List.zipWith (fun a b => a + b) A B).getD i 0 = A.getD i 0 + B.getD i 0 := by
  simp only [List.getD_eq_getElem?_getD]
  by_cases hi : i < A.length
  · have hb : i < B.length := h ▸ hi
    simp [List.getElem?_zipWith, hi, hb]
  · have hb : ¬ i < B.length := h ▸ hi
    simp [List.getElem?_zipWith, List.getElem?_eq_none (not_lt.mp hi),
      List.getElem?_eq_none (not_lt.mp hb)]

/-- The body of the training loop on the line of a well-formed record. -/
theorem trainStep_record {α : Type} [Field α] (cfg : Config α) (st : Training α) (r : Record)
    (he : st.my_email.Sized cfg) (hr : r.Sized cfg)
    (hs : st.num_words_spam.length = cfg.WORDS_SET_SIZE)
    (hh : st.num_words_ham.length = cfg.WORDS_SET_SIZE) :
    trainStep cfg st r.line = Except.ok
      { my_email := st.my_email.setEmailData cfg r.line
        num_words_spam :=
          if r.label = 0 then
            List.zipWith (fun a b => a + b) st.num_words_spam (r.features cfg)
          else st.num_words_spam
        num_words_ham :=
          if r.label = 0 then st.num_words_ham
          else List.zipWith (fun a b => a + b) st.num_words_ham (r.features cfg)
        num_spam := if r.label = 0 then st.num_spam + 1 else st.num_spam
        num_ham := if r.label = 0 then st.num_ham else st.num_ham + 1 } := by
  have hf : (r.features cfg).length = cfg.WORDS_SET_SIZE := by
    simp only [Record.features, List.length_map]; exact hr
  have hrec := setEmailData_record cfg st.my_email r he hr
  unfold trainStep
  simp only [Email.isHam, Email.wordsFrequency, hrec]
  have hcases : r.label = 0 ∨ r.label = 1 := by
    have : ∀ l : Fin 2, l = 0 ∨ l = 1 := by decide
    exact this r.label
  rcases hcases with hl | hl
  · rw [hl]
    simp only [Fin.val_zero, Nat.cast_zero, if_true]
    rw [operator_plus_eq _ _ (hs.trans hf.symm)]
    simp
  · rw [hl]
    simp only [Fin.val_one, Nat.cast_one, one_ne_zero, if_false, if_true, pure_bind]
    rw [operator_plus_eq _ _ (hh.trans hf.symm)]
    simp

theorem trainLoop_cons {α : Type} [Field α] (cfg : Config α) (st st1 : Training α)
    (line : List Char) (lines : List (List Char))
    (h : trainStep cfg st line = Except.ok st1) :
    trainLoop cfg st (line :: lines) = trainLoop cfg st1 lines := by
  unfold trainLoop
  rw [List.foldlM_cons, h]
  rfl

/-- The training loop on the lines of well-formed records, from any state
whose vectors have `WORDS_SET_SIZE` entries: it ends normally, and each class
receives the sum of the features and the number of its own records. -/
theorem trainLoop_records {α : Type} [Field α] (cfg : Config α) :
    ∀ (rs : List Record) (st : Training α),
      st.my_email.Sized cfg →
      st.num_words_spam.length = cfg.WORDS_SET_SIZE →
      st.num_words_ham.length = cfg.WORDS_SET_SIZE →
      (∀ r ∈ rs, r.Sized cfg) →
      ∃ st', trainLoop cfg st (rs.map Record.line) = Except.ok st' ∧
        st'.my_email.Sized cfg ∧
        st'.num_words_spam.length = cfg.WORDS_SET_SIZE ∧
        st'.num_words_ham.length = cfg.WORDS_SET_SIZE ∧
        st'.num_spam = st.num_spam + classCount 0 rs ∧
        st'.num_ham = st.num_ham + classCount 1 rs ∧
        (∀ i, st'.num_words_spam.getD i 0
          = st.num_words_spam.getD i 0 + classTotal cfg 0 rs i) ∧
        (∀ i, st'.num_words_ham.getD i 0
          = st.num_words_ham.getD i 0 + classTotal cfg 1 rs i) := by
  intro rs
  induction rs with
  | nil =>
    intro st he hs hh _
    exact ⟨st, rfl, he, hs, hh, by simp [classCount], by simp [classCount],
      by simp [classTotal], by simp [classTotal]⟩
  | cons r rs ih =>
    intro st he hs hh hrs
    have hr : r.Sized cfg := hrs r (List.mem_cons_self r rs)
    have hf : (r.features cfg).length = cfg.WORDS_SET_SIZE := by
      simp only [Record.features, List.length_map]; exact hr
    have hstep := trainStep_record cfg st r he hr hs hh
    rw [List.map_cons, trainLoop_cons cfg st _ r.line _ hstep]
    have hcases : r.label = 0 ∨ r.label = 1 := by
      have : ∀ l : Fin 2, l = 0 ∨ l = 1 := by decide
      exact this r.label
    have h01 : (0 : Fin 2) ≠ 1 := by decide
    have h10 : (1 : Fin 2) ≠ 0 := by decide
    rcases hcases with hl | hl
    · obtain ⟨st', h0, h1, h2, h3, h4, h5, h6, h7⟩ := ih
        { my_email := st.my_email.setEmailData cfg r.line
          num_words_spam :=
            if r.label = 0 then
              List.zipWith (fun a b => a + b) st.num_words_spam (r.features cfg)
            else st.num_words_spam
          num_words_ham :=
            if r.label = 0 then st.num_words_ham
            else List.zipWith (fun a b => a + b) st.num_words_ham (r.features cfg)
          num_spam := if r.label = 0 then st.num_spam + 1 else st.num_spam
          num_ham := if r.label = 0 then st.num_ham else st.num_ham + 1 }
        (Email.setEmailData_sized cfg _ _ he)
        (by simp [hl, hs, hf]) (by simp [hl, hh])
        (fun x hx => hrs x (List.mem_cons_of_mem r hx))
      refine ⟨st', h0, h1, h2, h3, ?_, ?_, ?_, ?_⟩
      · rw [h4]; simp [hl, classCount, List.filter_cons]; ring
      · rw [h5]; simp [hl, classCount, List.filter_cons, h01]
      · intro i
        rw [h6 i]
        simp only [hl, if_true, getD_zipWith_add _ _ (hs.trans hf.symm)]
        simp [classTotal, List.filter_cons, hl]; ring
      · intro i
        rw [h7 i]
        simp [classTotal, List.filter_cons, hl, h01]
    · obtain ⟨st', h0, h1, h2, h3, h4, h5, h6, h7⟩ := ih
        { my_email := st.my_email.setEmailData cfg r.line
          num_words_spam :=
            if r.label = 0 then
              List.zipWith (fun a b => a + b) st.num_words_spam (r.features cfg)
            else st.num_words_spam
          num_words_ham :=
            if r.label = 0 then st.num_words_ham
            else List.zipWith (fun a b => a + b) st.num_words_ham (r.features cfg)
          num_spam := if r.label = 0 then st.num_spam + 1 else st.num_spam
          num_ham := if r.label = 0 then st.num_ham else st.num_ham + 1 }
        (Email.setEmailData_sized cfg _ _ he)
        (by simp [hl, hs]) (by simp [hl, hh, hf])
        (fun x hx => hrs x (List.mem_cons_of_mem r hx))
      refine ⟨st', h0, h1, h2, h3, ?_, ?_, ?_, ?_⟩
      · rw [h4]; simp [hl, classCount, List.filter_cons, h10]
      · rw [h5]; simp [hl, classCount, List.filter_cons]; ring
      · intro i
        rw [h6 i]
        simp [classTotal, List.filter_cons, hl, h10]
      · intro i
        rw [h7 i]
        simp only [hl, h10, if_false, getD_zipWith_add _ _ (hh.trans hf.symm)]
        simp [classTotal, List.filter_cons, hl]; ring

/-! ## Lemmas on the derivation of the log-probabilities -/

theorem totalWords_eq {α : Type} [Field α] (cfg : Config α) (st : Training α) :
    totalWords cfg st
      = (∑ i in Finset.range cfg.WORDS_SET_SIZE, st.num_words_spam.getD i 0,
         ∑ i in Finset.range cfg.WORDS_SET_SIZE, st.num_words_ham.getD i 0) := by
  unfold totalWords
  rw [forLoop_pair (fun i (t : α) => t + st.num_words_spam.getD i 0)
    (fun i (t : α) => t + st.num_words_ham.getD i 0), forLoop_sum, forLoop_sum, zero_add,
    zero_add]

theorem wordProbability_eq {α : Type} [Field α] (ln : α → α) (cfg : Config α)
    (st : Training α) :
    wordProbability ln cfg st
      = (forLoop (fun i (w : List α) =>
            w.set i (ln (st.num_words_spam.getD i 0 / (totalWords cfg st).1)))
          0 cfg.WORDS_SET_SIZE (List.replicate cfg.WORDS_SET_SIZE 0),
         forLoop (fun i (w : List α) =>
            w.set i (ln (st.num_words_ham.getD i 0 / (totalWords cfg st).2)))
          0 cfg.WORDS_SET_SIZE (List.replicate cfg.WORDS_SET_SIZE 0)) := by
  unfold wordProbability
  exact forLoop_pair
    (fun i (w : List α) => w.set i (ln (st.num_words_spam.getD i 0 / (totalWords cfg st).1)))
    (fun i (w : List α) => w.set i (ln (st.num_words_ham.getD i 0 / (totalWords cfg st).2)))
    cfg.WORDS_SET_SIZE 0 _ _

/-- The entries of the derived model: `ln` of the share of each word in the
total of its class. -/
theorem deriveModel_entries {α : Type} [Field α] (ln : α → α) (cfg : Config α)
    (st : Training α) :
    (deriveModel ln cfg st).word_probability_spam.length = cfg.WORDS_SET_SIZE ∧
    (deriveModel ln cfg st).word_probability_ham.length = cfg.WORDS_SET_SIZE ∧
    (∀ i, i < cfg.WORDS_SET_SIZE →
      (deriveModel ln cfg st).word_probability_spam.getD i 0
        = ln (st.num_words_spam.getD i 0
            / ∑ j in Finset.range cfg.WORDS_SET_SIZE, st.num_words_spam.getD j 0)) ∧
    (∀ i, i < cfg.WORDS_SET_SIZE →
      (deriveModel ln cfg st).word_probability_ham.getD i 0
        = ln (st.num_words_ham.getD i 0
            / ∑ j in Finset.range cfg.WORDS_SET_SIZE, st.num_words_ham.getD j 0)) := by
  unfold deriveModel
  simp only [wordProbability_eq, totalWords_eq]
  obtain ⟨hl1, hg1⟩ := forLoop_set
    (fun i => ln (st.num_words_spam.getD i 0
      / ∑ j in Finset.range cfg.WORDS_SET_SIZE, st.num_words_spam.getD j 0))
    (0 : α) cfg.WORDS_SET_SIZE cfg.WORDS_SET_SIZE (le_refl _)
  obtain ⟨hl2, hg2⟩ := forLoop_set
    (fun i => ln (st.num_words_ham.getD i 0
      / ∑ j in Finset.range cfg.WORDS_SET_SIZE, st.num_words_ham.getD j 0))
    (0 : α) cfg.WORDS_SET_SIZE cfg.WORDS_SET_SIZE (le_refl _)
  exact ⟨hl1, hl2, hg1, hg2⟩

/-- The exponentials of `ln (v i / total)` over positive `v i` add up to one. -/
theorem sum_exp_log_share (K : Nat) (hK : 0 < K) (v w : Nat → ℝ)
    (hpos : ∀ i, i < K → 0 < v i)
    (hw : ∀ i, i < K → w i = Real.log (v i / ∑ j in Finset.range K, v j)) :
    ∑ i in Finset.range K, Real.exp (w i) = 1 := by
  have htot : 0 < ∑ j in Finset.range K, v j :=
    Finset.sum_pos (fun i hi => hpos i (Finset.mem_range.mp hi))
      ⟨0, Finset.mem_range.mpr hK⟩
  have hterm : ∀ i ∈ Finset.range K,
      Real.exp (w i) = v i / ∑ j in Finset.range K, v j := by
    intro i hi
    have hi' := Finset.mem_range.mp hi
    rw [hw i hi', Real.exp_log (div_pos (hpos i hi') htot)]
  rw [Finset.sum_congr rfl hterm, ← Finset.sum_div]
  exact div_self (ne_of_gt htot)

theorem Decimal.value_nonneg (d : Decimal) (h : d.neg = false) : (0 : ℝ) ≤ d.value := by
  unfold Decimal.value
  rw [h]
  simp only [Bool.false_eq_true, if_false]
  positivity

/-- A class with a record has positive totals when no frequency is negative
and the offset is positive. -/
theorem classTotal_pos (cfg : Config ℝ) (hε : 0 < cfg.OFF_SET) (l : Fin 2) (rs : List Record)
    (hrs : ∀ r ∈ rs, r.Sized cfg) (hnn : ∀ r ∈ rs, ∀ d ∈ r.freq, d.neg = false)
    (hc : 0 < classCount l rs) (i : Nat) (hi : i < cfg.WORDS_SET_SIZE) :
    0 < classTotal cfg l rs i := by
  unfold classTotal
  apply List.sum_pos
  · intro x hx
    simp only [List.mem_map, List.mem_filter] at hx
    obtain ⟨r, ⟨hr, _⟩, rfl⟩ := hx
    have hlen : i < r.freq.length := by rw [hrs r hr]; exact hi
    have hv := Decimal.value_nonneg (r.freq[i]) (hnn r hr _ (List.getElem_mem hlen))
    simp only [Record.features, List.getD_eq_getElem?_getD, List.getElem?_map,
      List.getElem?_eq_getElem hlen, Option.map_some', Option.getD_some]
    linarith
  · intro hnil
    unfold classCount at hc
    rw [List.map_eq_nil_iff] at hnil
    rw [hnil] at hc
    simp at hc

/-! ## Lemmas on the scoring loop and on the counting statements -/

theorem log_ratio_eq {α : Type} [Field α] (ln : α → α) (cfg : Config α) (m : Model α)
    (e : Email α) :
    log_ratio ln cfg m e
      = (∑ i in Finset.range cfg.WORDS_SET_SIZE,
          e.wordsFrequency.getD i 0
            * (m.word_probability_spam.getD i 0 - m.word_probability_ham.getD i 0))
        + (ln (m.num_spam : α) - ln (m.num_ham : α)) := by
  unfold log_ratio
  rw [forLoop_sum, zero_add]
  congr 1
  apply Finset.sum_congr rfl
  intro i _
  ring

theorem tally_cells {α : Type} [LinearOrderedField α] (e : Email α) (r : α) (c : Counters) :
    (tally e r c).spam_predict_as_spam
        = c.spam_predict_as_spam + (if e.isHam = 0 ∧ 0 < r then 1 else 0) ∧
    (tally e r c).spam_predict_as_ham
        = c.spam_predict_as_ham + (if e.isHam = 0 ∧ r < 0 then 1 else 0) ∧
    (tally e r c).ham_predict_as_spam
        = c.ham_predict_as_spam + (if e.isHam ≠ 0 ∧ 0 < r then 1 else 0) ∧
    (tally e r c).ham_predict_as_ham
        = c.ham_predict_as_ham + (if e.isHam ≠ 0 ∧ r < 0 then 1 else 0) := by
  unfold tally
  by_cases hl : e.isHam = 0 <;> by_cases h1 : r < 0 <;> by_cases h2 : 0 < r <;>
    simp [hl, h1, h2]

theorem tally_classes {α : Type} [LinearOrderedField α] (e : Email α) (r : α) (c : Counters) :
    (tally e r c).num_test_email = c.num_test_email ∧
    (tally e r c).num_ham_in_test
        = c.num_ham_in_test + (if e.isHam = 0 then 1 else 0) ∧
    (tally e r c).num_spam_in_test
        = c.num_spam_in_test + (if e.isHam = 0 then 0 else 1) := by
  unfold tally
  by_cases hl : e.isHam = 0 <;> by_cases h1 : r < 0 <;> by_cases h2 : 0 < r <;>
    simp [hl, h1, h2]

theorem Record.oneZero_line (l : Fin 2) :
    (Record.oneZero l).line = ['1', ',', '0', ',', if l = 0 then '0' else '1'] := by
  revert l; decide

/-! ## Lemmas on the test loop and on `main` -/

/-- The class counters and the record counter of the test loop on the lines of
well-formed records. -/
theorem testLoop_records {α : Type} [LinearOrderedField α] (ln : α → α) (cfg : Config α)
    (m : Model α) :
    ∀ (rs : List Record) (st : Testing α),
      st.my_email.Sized cfg → (∀ r ∈ rs, r.Sized cfg) →
      (testLoop ln cfg m st (rs.map Record.line)).my_email.Sized cfg ∧
      (testLoop ln cfg m st (rs.map Record.line)).counters.num_test_email
        = st.counters.num_test_email + (rs.length : Int) ∧
      (testLoop ln cfg m st (rs.map Record.line)).counters.num_ham_in_test
        = st.counters.num_ham_in_test + classCount 0 rs ∧
      (testLoop ln cfg m st (rs.map Record.line)).counters.num_spam_in_test
        = st.counters.num_spam_in_test + classCount 1 rs := by
  intro rs
  induction rs with
  | nil => intro st he _; simp [testLoop, classCount, he]
  | cons r rs ih =>
    intro st he hrs
    have hr : r.Sized cfg := hrs r (List.mem_cons_self r rs)
    have hlab : (st.my_email.setEmailData cfg r.line).isHam = (r.label.val : Int) := by
      rw [setEmailData_record cfg _ r he hr]; rfl
    obtain ⟨h1, h2, h3, h4⟩ := ih (testStep ln cfg m st r.line)
      (Email.setEmailData_sized cfg _ _ he) (fun x hx => hrs x (List.mem_cons_of_mem r hx))
    obtain ⟨t1, t2, t3⟩ := tally_classes (st.my_email.setEmailData cfg r.line)
      (log_ratio ln cfg m (st.my_email.setEmailData cfg r.line))
      { st.counters with num_test_email := st.counters.num_test_email + 1 }
    have hstep : testLoop ln cfg m st ((r :: rs).map Record.line)
        = testLoop ln cfg m (testStep ln cfg m st r.line) (rs.map Record.line) := rfl
    rw [hstep]
    refine ⟨h1, ?_, ?_, ?_⟩
    · rw [h2]
      show (tally _ _ _).num_test_email + _ = _
      rw [t1]; simp; ring
    · rw [h3]
      show (tally _ _ _).num_ham_in_test + _ = _
      rw [t2, hlab]
      have hcases : r.label = 0 ∨ r.label = 1 := by
        have : ∀ l : Fin 2, l = 0 ∨ l = 1 := by decide
        exact this r.label
      rcases hcases with hl | hl
      · simp [hl, classCount, List.filter_cons]; ring
      · simp [hl, classCount, List.filter_cons]
    · rw [h4]
      show (tally _ _ _).num_spam_in_test + _ = _
      rw [t3, hlab]
      have hcases : r.label = 0 ∨ r.label = 1 := by
        have : ∀ l : Fin 2, l = 0 ∨ l = 1 := by decide
        exact this r.label
      rcases hcases with hl | hl
      · simp [hl, classCount, List.filter_cons]
      · simp [hl, classCount, List.filter_cons]; ring

/-- The run of `main` once the training loop has ended normally. -/
theorem main_eq {α : Type} [LinearOrderedField α] (ln : α → α) (cfg : Config α)
    (training test : List (List Char)) (st : Training α)
    (h : trainLoop cfg (Training.init cfg) training = Except.ok st) :
    main ln cfg training test = Except.ok
      (report st (testLoop ln cfg (deriveModel ln cfg st)
        { my_email := st.my_email, counters := Counters.init } test).counters) := by
  unfold main
  rw [h]
  rfl

/-- Equal class totals and equal class counts give a `log_ratio` of zero. -/
theorem log_ratio_tie {α : Type} [Field α] (ln : α → α) (cfg : Config α) (st : Training α)
    (e : Email α) (hw : st.num_words_spam = st.num_words_ham) (hn : st.num_spam = st.num_ham) :
    log_ratio ln cfg (deriveModel ln cfg st) e = 0 := by
  have hm : (deriveModel ln cfg st).word_probability_spam
      = (deriveModel ln cfg st).word_probability_ham := by
    unfold deriveModel
    simp only [wordProbability_eq, totalWords_eq, hw]
  rw [log_ratio_eq, hm]
  simp [deriveModel, hn]

theorem Record.zeros_sized {α : Type} [Field α] (cfg : Config α) (l : Fin 2) :
    (Record.zeros cfg.WORDS_SET_SIZE l).Sized cfg := by
  simp [Record.Sized, Record.zeros]

theorem Record.zeros_features {α : Type} [Field α] (cfg : Config α) (l : Fin 2) :
    (Record.zeros cfg.WORDS_SET_SIZE l).features cfg
      = List.replicate cfg.WORDS_SET_SIZE cfg.OFF_SET := by
  simp [Record.features, Record.zeros, Decimal.zero, Decimal.value, digitsNat]

/-- Lists of equal length with equal reads are equal. -/
theorem list_eq_of_getD {α : Type} [Field α] (A B : List α) (hl : A.length = B.length)
    (h : ∀ i, A.getD i 0 = B.getD i 0) : A = B := by
  apply List.ext_getElem hl
  intro i h1 h2
  have := h i
  simpa [List.getD_eq_getElem?_getD, h1, h2] using this

/-- Training on one spam record and one ham record with the same features
gives both classes the same totals and the same count. -/
theorem trainLoop_tieTraining {α : Type} [Field α] (cfg : Config α) :
    ∃ st, trainLoop cfg (Training.init cfg)
        ((Record.tieTraining cfg.WORDS_SET_SIZE).map Record.line) = Except.ok st ∧
      st.my_email.Sized cfg ∧ st.num_words_spam = st.num_words_ham ∧
      st.num_spam = 1 ∧ st.num_ham = 1 := by
  obtain ⟨st, h0, h1, h2, h3, h4, h5, h6, h7⟩ := trainLoop_records cfg
    (Record.tieTraining cfg.WORDS_SET_SIZE) (Training.init cfg)
    (Email.new_sized cfg) (by simp [Training.init]) (by simp [Training.init])
    (by
      intro r hr
      simp only [Record.tieTraining, List.mem_cons, List.mem_singleton, List.not_mem_nil,
        or_false] at hr
      rcases hr with rfl | rfl <;> exact Record.zeros_sized cfg _)
  refine ⟨st, h0, h1, ?_, ?_, ?_⟩
  · apply list_eq_of_getD _ _ (h2.trans h3.symm)
    intro i
    rw [h6 i, h7 i]
    simp [Training.init, classTotal, Record.tieTraining, List.filter_cons, Record.zeros,
      Record.features]
  · rw [h4]; simp [Training.init, classCount, Record.tieTraining, List.filter_cons, Record.zeros]
  · rw [h5]; simp [Training.init, classCount, Record.tieTraining, List.filter_cons, Record.zeros]

/-! ## The scoring formula and the decision rule -/

/-- C1: for every model and every parsed record, the `log_ratio` that the test
loop computes is the sum over the words `i < WORDS_SET_SIZE` of
`f[i] * (word_probability_spam[i] - word_probability_ham[i])`, plus
`ln(num_spam) - ln(num_ham)`, in real arithmetic. -/
theorem log_ratio_formula (cfg : Config ℝ) (m : Model ℝ) (e : Email ℝ) :
    log_ratio Real.log cfg m e
      = (∑ i in Finset.range cfg.WORDS_SET_SIZE,
          e.wordsFrequency.getD i 0
            * (m.word_probability_spam.getD i 0 - m.word_probability_ham.getD i 0))
        + (Real.log (m.num_spam : ℝ) - Real.log (m.num_ham : ℝ)) :=
  log_ratio_eq Real.log cfg m e

/-! ## The record parser -/

/-- C3: for the line of a well-formed record (`K` numerals and a label `0` or
`1`, joined by commas), after `setEmailData` the accessor `isHam` returns the
label: `0` for the label `0` (spam) and `1` for the label `1` (ham). -/
theorem setEmailData_isHam {α : Type} [Field α] (cfg : Config α) (e : Email α) (r : Record)
    (he : e.Sized cfg) (hr : r.Sized cfg) :
    (e.setEmailData cfg r.line).isHam = (r.label.val : Int) ∧
    (r.label = 0 → (e.setEmailData cfg r.line).isHam = 0) ∧
    (r.label = 1 → (e.setEmailData cfg r.line).isHam = 1) := by
  have h : (e.setEmailData cfg r.line).isHam = (r.label.val : Int) := by
    rw [setEmailData_record cfg e r he hr]; rfl
  refine ⟨h, ?_, ?_⟩
  · intro hl; rw [h, hl]; rfl
  · intro hl; rw [h, hl]; rfl

/-- C4: for a line of exactly `K + 1` numerals joined by commas, after
`setEmailData` the `i`-th entry of `wordsFrequency` is the value of the `i`-th
numeral plus `OFF_SET`, for every `i < K`, and the vector has `K` entries. -/
theorem setEmailData_wordsFrequency {α : Type} [Field α] (cfg : Config α) (e : Email α)
    (ds : List Decimal) (last : Decimal) (he : e.Sized cfg)
    (hK : ds.length = cfg.WORDS_SET_SIZE) :
    (e.setEmailData cfg (joinComma ((ds ++ [last]).map Decimal.text))).wordsFrequency.length
      = cfg.WORDS_SET_SIZE ∧
    ∀ (i : Nat) (hi : i < ds.length),
      (e.setEmailData cfg (joinComma ((ds ++ [last]).map Decimal.text))).wordsFrequency[i]?
        = some ((ds[i]).value + cfg.OFF_SET) := by
  have hline : (ds ++ [last]).map Decimal.text = ds.map Decimal.text ++ [last.text] := by
    simp
  rw [hline]
  unfold Email.wordsFrequency
  rw [setEmailData_freq_tail cfg e ds last.text he hK]
  refine ⟨?_, ?_⟩
  · simp only [List.length_map]
    exact hK
  · intro i hi
    simp [hi]

theorem setEmailData_isHam_witness :
    (Email.new (Config.small ℚ)).Sized (Config.small ℚ) ∧
    (Record.oneZero 1).Sized (Config.small ℚ) ∧
    (Record.oneZero 1).line = ['1', ',', '0', ',', '1'] ∧
    ((Email.new (Config.small ℚ)).setEmailData (Config.small ℚ)
      ['1', ',', '0', ',', '1']).isHam = 1 :=
  ⟨Email.new_sized _, rfl, Record.oneZero_line 1,
    (Record.oneZero_line 1) ▸
      (setEmailData_isHam (Config.small ℚ) (Email.new (Config.small ℚ)) (Record.oneZero 1)
        (Email.new_sized _) rfl).2.2 rfl⟩

theorem setEmailData_wordsFrequency_witness :
    (Email.new (Config.small ℚ)).Sized (Config.small ℚ) ∧
    [Decimal.one, Decimal.zero].length = (Config.small ℚ).WORDS_SET_SIZE ∧
    joinComma (([Decimal.one, Decimal.zero] ++ [Decimal.one]).map Decimal.text)
      = ['1', ',', '0', ',', '1'] ∧
    ((Email.new (Config.small ℚ)).setEmailData (Config.small ℚ)
      ['1', ',', '0', ',', '1']).wordsFrequency[0]? = some (101 / 100) := by
  have hline : joinComma (([Decimal.one, Decimal.zero] ++ [Decimal.one]).map Decimal.text)
      = ['1', ',', '0', ',', '1'] := by decide
  refine ⟨Email.new_sized _, rfl, hline, ?_⟩
  have h := (setEmailData_wordsFrequency (Config.small ℚ) (Email.new (Config.small ℚ))
    [Decimal.one, Decimal.zero] Decimal.one (Email.new_sized _) rfl).2 0 (by decide)
  rw [hline] at h
  rw [h]
  norm_num [Decimal.one, Decimal.value, digitsNat, Config.small]

/-! ## The training loop and the derived model -/

/-- C5: on the lines of well-formed records the training loop ends normally
with `num_spam` and `num_ham` the numbers of records labelled `0` and `1`, and
with `num_words_spam[i]` and `num_words_ham[i]` the sums of `features[i]` over
the records labelled `0` and `1`; a record leaves the total and the count of
the other class as they were. -/
theorem trainLoop_class_sums {α : Type} [Field α] (cfg : Config α) (rs : List Record)
    (hrs : ∀ r ∈ rs, r.Sized cfg) :
    (∃ st, trainLoop cfg (Training.init cfg) (rs.map Record.line) = Except.ok st ∧
      st.num_spam = classCount 0 rs ∧
      st.num_ham = classCount 1 rs ∧
      st.num_words_spam.length = cfg.WORDS_SET_SIZE ∧
      st.num_words_ham.length = cfg.WORDS_SET_SIZE ∧
      (∀ i, i < cfg.WORDS_SET_SIZE → st.num_words_spam.getD i 0 = classTotal cfg 0 rs i) ∧
      (∀ i, i < cfg.WORDS_SET_SIZE → st.num_words_ham.getD i 0 = classTotal cfg 1 rs i)) ∧
    (∀ (st : Training α) (r : Record),
      st.my_email.Sized cfg → r.Sized cfg →
      st.num_words_spam.length = cfg.WORDS_SET_SIZE →
      st.num_words_ham.length = cfg.WORDS_SET_SIZE →
      ∃ st', trainStep cfg st r.line = Except.ok st' ∧
        (r.label = 0 → st'.num_words_ham = st.num_words_ham ∧ st'.num_ham = st.num_ham) ∧
        (r.label = 1 → st'.num_words_spam = st.num_words_spam ∧ st'.num_spam = st.num_spam)) := by
  constructor
  · obtain ⟨st, h0, _, h2, h3, h4, h5, h6, h7⟩ := trainLoop_records cfg rs (Training.init cfg)
      (Email.new_sized cfg) (by simp [Training.init]) (by simp [Training.init]) hrs
    refine ⟨st, h0, ?_, ?_, h2, h3, ?_, ?_⟩
    · rw [h4]; simp [Training.init]
    · rw [h5]; simp [Training.init]
    · intro i _; rw [h6 i]; simp [Training.init, List.getD_eq_getElem?_getD]
    · intro i _; rw [h7 i]; simp [Training.init, List.getD_eq_getElem?_getD]
  · intro st r he hr hs hh
    refine ⟨_, trainStep_record cfg st r he hr hs hh, ?_, ?_⟩
    · intro hl; simp [hl]
    · intro hl; simp [hl]

theorem Record.sampleTraining_sized {α : Type} [Field α] :
    ∀ r ∈ Record.sampleTraining, r.Sized (Config.small α) := by
  intro r hr
  simp only [Record.sampleTraining, List.mem_cons, List.mem_singleton, List.not_mem_nil,
    or_false] at hr
  rcases hr with rfl | rfl <;> rfl

theorem trainLoop_class_sums_witness :
    (∀ r ∈ Record.sampleTraining, r.Sized (Config.small ℚ)) ∧
    ∃ st, trainLoop (Config.small ℚ) (Training.init (Config.small ℚ))
        (Record.sampleTraining.map Record.line) = Except.ok st ∧
      st.num_spam = 1 ∧ st.num_ham = 1 ∧
      st.num_words_spam.getD 0 0 = 101 / 100 ∧ st.num_words_ham.getD 0 0 = 1 / 100 := by
  refine ⟨Record.sampleTraining_sized, ?_⟩
  obtain ⟨st, h0, h1, h2, _, _, h5, h6⟩ :=
    (trainLoop_class_sums (Config.small ℚ) Record.sampleTraining
      Record.sampleTraining_sized).1
  refine ⟨st, h0, ?_, ?_, ?_, ?_⟩
  · rw [h1]; decide
  · rw [h2]; decide
  · rw [h5 0 (by decide)]
    norm_num [classTotal, Record.sampleTraining, Record.oneZero, Record.zeroOne,
      Record.features, Decimal.one, Decimal.zero, Decimal.value, digitsNat, Config.small,
      List.filter_cons]
  · rw [h6 0 (by decide)]
    norm_num [classTotal, Record.sampleTraining, Record.oneZero, Record.zeroOne,
      Record.features, Decimal.one, Decimal.zero, Decimal.value, digitsNat, Config.small,
      List.filter_cons]

/-- C6: the derived log-probability of each word is `ln` of its share in the
total of its class; with a non-empty word set, the exponentials of the derived
log-probabilities of a class whose per-word totals are all positive add up to
one, for the spam class and for the ham class; after training on well-formed
records without negative frequencies and with a positive offset, this holds
for each class that has at least one training record. -/
theorem exp_word_probability_sum (cfg : Config ℝ) (hK : 0 < cfg.WORDS_SET_SIZE) :
    (∀ st : Training ℝ,
      (∀ i, i < cfg.WORDS_SET_SIZE →
        (deriveModel Real.log cfg st).word_probability_spam.getD i 0
          = Real.log (st.num_words_spam.getD i 0
              / ∑ j in Finset.range cfg.WORDS_SET_SIZE, st.num_words_spam.getD j 0)) ∧
      (∀ i, i < cfg.WORDS_SET_SIZE →
        (deriveModel Real.log cfg st).word_probability_ham.getD i 0
          = Real.log (st.num_words_ham.getD i 0
              / ∑ j in Finset.range cfg.WORDS_SET_SIZE, st.num_words_ham.getD j 0)) ∧
      ((∀ i, i < cfg.WORDS_SET_SIZE → 0 < st.num_words_spam.getD i 0) →
        ∑ i in Finset.range cfg.WORDS_SET_SIZE,
          Real.exp ((deriveModel Real.log cfg st).word_probability_spam.getD i 0) = 1) ∧
      ((∀ i, i < cfg.WORDS_SET_SIZE → 0 < st.num_words_ham.getD i 0) →
        ∑ i in Finset.range cfg.WORDS_SET_SIZE,
          Real.exp ((deriveModel Real.log cfg st).word_probability_ham.getD i 0) = 1)) ∧
    (∀ rs : List Record,
      0 < cfg.OFF_SET → (∀ r ∈ rs, r.Sized cfg) → (∀ r ∈ rs, ∀ d ∈ r.freq, d.neg = false) →
      ∃ st, trainLoop cfg (Training.init cfg) (rs.map Record.line) = Except.ok st ∧
        (0 < classCount 0 rs →
          ∑ i in Finset.range cfg.WORDS_SET_SIZE,
            Real.exp ((deriveModel Real.log cfg st).word_probability_spam.getD i 0) = 1) ∧
        (0 < classCount 1 rs →
          ∑ i in Finset.range cfg.WORDS_SET_SIZE,
            Real.exp ((deriveModel Real.log cfg st).word_probability_ham.getD i 0) = 1)) := by
  have hA : ∀ st : Training ℝ,
      ((∀ i, i < cfg.WORDS_SET_SIZE → 0 < st.num_words_spam.getD i 0) →
        ∑ i in Finset.range cfg.WORDS_SET_SIZE,
          Real.exp ((deriveModel Real.log cfg st).word_probability_spam.getD i 0) = 1) ∧
      ((∀ i, i < cfg.WORDS_SET_SIZE → 0 < st.num_words_ham.getD i 0) →
        ∑ i in Finset.range cfg.WORDS_SET_SIZE,
          Real.exp ((deriveModel Real.log cfg st).word_probability_ham.getD i 0) = 1) := by
    intro st
    obtain ⟨_, _, hs, hh⟩ := deriveModel_entries Real.log cfg st
    exact ⟨fun hpos => sum_exp_log_share _ hK _ _ hpos hs,
      fun hpos => sum_exp_log_share _ hK _ _ hpos hh⟩
  refine ⟨fun st => ⟨(deriveModel_entries Real.log cfg st).2.2.1,
    (deriveModel_entries Real.log cfg st).2.2.2, (hA st).1, (hA st).2⟩, ?_⟩
  intro rs hε hrs hnn
  obtain ⟨st, h0, _, _, _, _, _, h6, h7⟩ := trainLoop_records cfg rs (Training.init cfg)
    (Email.new_sized cfg) (by simp [Training.init]) (by simp [Training.init]) hrs
  have hz : ∀ i, (Training.init cfg).num_words_spam.getD i 0 = 0 ∧
      (Training.init cfg).num_words_ham.getD i 0 = 0 := by
    intro i
    simp [Training.init, List.getD_eq_getElem?_getD, List.getElem?_replicate]
    split <;> simp
  refine ⟨st, h0, ?_, ?_⟩
  · intro hc
    apply (hA st).1
    intro i hi
    rw [h6 i, (hz i).1, zero_add]
    exact classTotal_pos cfg hε 0 rs hrs hnn hc i hi
  · intro hc
    apply (hA st).2
    intro i hi
    rw [h7 i, (hz i).2, zero_add]
    exact classTotal_pos cfg hε 1 rs hrs hnn hc i hi

theorem Record.sampleTraining_nonneg :
    ∀ r ∈ Record.sampleTraining, ∀ d ∈ r.freq, d.neg = false := by
  intro r hr d hd
  simp only [Record.sampleTraining, List.mem_cons, List.mem_singleton, List.not_mem_nil,
    or_false] at hr
  rcases hr with rfl | rfl <;>
    simp only [Record.oneZero, Record.zeroOne, List.mem_cons, List.mem_singleton,
      List.not_mem_nil, or_false] at hd <;>
    rcases hd with rfl | rfl <;> rfl

theorem exp_word_probability_sum_witness :
    0 < (Config.small ℝ).WORDS_SET_SIZE ∧
    0 < (Config.small ℝ).OFF_SET ∧
    (∀ r ∈ Record.sampleTraining, r.Sized (Config.small ℝ)) ∧
    (∀ r ∈ Record.sampleTraining, ∀ d ∈ r.freq, d.neg = false) ∧
    0 < classCount 0 Record.sampleTraining ∧
    0 < classCount 1 Record.sampleTraining ∧
    ∃ st, trainLoop (Config.small ℝ) (Training.init (Config.small ℝ))
        (Record.sampleTraining.map Record.line) = Except.ok st ∧
      ∑ i in Finset.range (Config.small ℝ).WORDS_SET_SIZE,
        Real.exp ((deriveModel Real.log (Config.small ℝ) st).word_probability_spam.getD i 0)
          = 1 ∧
      ∑ i in Finset.range (Config.small ℝ).WORDS_SET_SIZE,
        Real.exp ((deriveModel Real.log (Config.small ℝ) st).word_probability_ham.getD i 0)
          = 1 := by
  have hK : 0 < (Config.small ℝ).WORDS_SET_SIZE := by decide
  have hε : 0 < (Config.small ℝ).OFF_SET := by norm_num [Config.small]
  have hc0 : 0 < classCount 0 Record.sampleTraining := by decide
  have hc1 : 0 < classCount 1 Record.sampleTraining := by decide
  obtain ⟨st, h0, hs, hh⟩ := (exp_word_probability_sum (Config.small ℝ) hK).2
    Record.sampleTraining hε Record.sampleTraining_sized Record.sampleTraining_nonneg
  exact ⟨hK, hε, Record.sampleTraining_sized, Record.sampleTraining_nonneg, hc0, hc1,
    st, h0, hs hc0, hh hc1⟩

/-! ## The report of `main` -/

/-- C7: on the constants of `main`, after training on one spam and one ham
record, a test file with the single record `0,...,0,0` (label `0`, spam) is
reported as `Spam emails: 0` and `Ham emails: 1`: the two class counters of the
test loop are exchanged. -/
theorem main_test_classes_exchanged :
    ∃ rep, main Real.log (Config.reference ℝ)
        ((Record.tieTraining 57).map Record.line) [(Record.zeros 57 0).line] = Except.ok rep ∧
      rep.test_emails = 1 ∧ rep.test_spam = 0 ∧ rep.test_ham = 1 := by
  obtain ⟨st, h0, h1, _, _, _⟩ := trainLoop_tieTraining (Config.reference ℝ)
  obtain ⟨_, t2, t3, t4⟩ := testLoop_records Real.log (Config.reference ℝ)
    (deriveModel Real.log (Config.reference ℝ) st) [Record.zeros 57 0]
    { my_email := st.my_email, counters := Counters.init } h1
    (by
      intro r hr
      rw [List.mem_singleton] at hr
      rw [hr]
      exact Record.zeros_sized (Config.reference ℝ) 0)
  refine ⟨_, main_eq Real.log (Config.reference ℝ) _ _ st h0, ?_, ?_, ?_⟩
  · exact t2
  · have hc : classCount 1 [Record.zeros 57 0] = 0 := by decide
    rw [hc] at t4
    exact t4
  · have hc : classCount 0 [Record.zeros 57 0] = 1 := by decide
    rw [hc] at t3
    exact t3

/-- C8: on the constants of `main`, after training on one spam and one ham
record with the same features, the test record `0,...,0,0` has a `log_ratio` of
exactly zero: `main` reports one test email and leaves all four confusion
counters at zero, so that they add up to zero and not to one. -/
theorem main_tie_not_counted :
    ∃ rep, main Real.log (Config.reference ℝ)
        ((Record.tieTraining 57).map Record.line) [(Record.zeros 57 0).line] = Except.ok rep ∧
      rep.test_emails = 1 ∧
      rep.ham_predicted_as_ham = 0 ∧ rep.spam_predicted_as_spam = 0 ∧
      rep.ham_predicted_as_spam = 0 ∧ rep.spam_predicted_as_ham = 0 := by
  obtain ⟨st, h0, _, hw, hs, hh⟩ := trainLoop_tieTraining (Config.reference ℝ)
  refine ⟨_, main_eq Real.log (Config.reference ℝ) _ _ st h0, ?_⟩
  have hstep : testLoop Real.log (Config.reference ℝ)
      (deriveModel Real.log (Config.reference ℝ) st)
      { my_email := st.my_email, counters := Counters.init } [(Record.zeros 57 0).line]
      = testStep Real.log (Config.reference ℝ) (deriveModel Real.log (Config.reference ℝ) st)
          { my_email := st.my_email, counters := Counters.init } (Record.zeros 57 0).line := rfl
  rw [hstep]
  unfold testStep
  simp only [log_ratio_tie Real.log (Config.reference ℝ) st _ hw (hs.trans hh.symm)]
  obtain ⟨c1, c2, c3, c4⟩ := tally_cells
    (st.my_email.setEmailData (Config.reference ℝ) (Record.zeros 57 0).line) (0 : ℝ)
    { Counters.init with num_test_email := Counters.init.num_test_email + 1 }
  obtain ⟨d1, _, _⟩ := tally_classes
    (st.my_email.setEmailData (Config.reference ℝ) (Record.zeros 57 0).line) (0 : ℝ)
    { Counters.init with num_test_email := Counters.init.num_test_email + 1 }
  simp only [lt_irrefl, and_false, if_false, add_zero] at c1 c2 c3 c4
  simp only [report]
  exact ⟨d1, c4, c1, c3, c2⟩

/-- C9: on the constants of `main`, the first call of `setEmailData` on a new
object with the line `0,...,0,0` gives `numWords` the sum of `wordsFrequency`,
`57/4000`; a second call on the same object with the same line leaves the sum
of `wordsFrequency` at `57/4000` and gives `numWords` the value `57/2000`:
`num_words_` is not reset between calls. -/
theorem numWords_not_reset :
    ((Email.new (Config.reference ℚ)).setEmailData (Config.reference ℚ)
        (Record.zeros 57 0).line).numWords = 57 / 4000 ∧
    ((Email.new (Config.reference ℚ)).setEmailData (Config.reference ℚ)
        (Record.zeros 57 0).line).wordsFrequency.sum = 57 / 4000 ∧
    (((Email.new (Config.reference ℚ)).setEmailData (Config.reference ℚ)
        (Record.zeros 57 0).line).setEmailData (Config.reference ℚ)
        (Record.zeros 57 0).line).wordsFrequency.sum = 57 / 4000 ∧
    (((Email.new (Config.reference ℚ)).setEmailData (Config.reference ℚ)
        (Record.zeros 57 0).line).setEmailData (Config.reference ℚ)
        (Record.zeros 57 0).line).numWords = 57 / 2000 := by
  have hz : (Record.zeros 57 0).Sized (Config.reference ℚ) :=
    Record.zeros_sized (Config.reference ℚ) 0
  have hf : (Record.zeros 57 0).features (Config.reference ℚ)
      = List.replicate 57 (1 / 4000 : ℚ) := Record.zeros_features (Config.reference ℚ) 0
  have h1 := setEmailData_record (Config.reference ℚ) (Email.new (Config.reference ℚ))
    (Record.zeros 57 0) (Email.new_sized _) hz
  have h2 := setEmailData_record (Config.reference ℚ)
    ((Email.new (Config.reference ℚ)).setEmailData (Config.reference ℚ) (Record.zeros 57 0).line)
    (Record.zeros 57 0) (Email.setEmailData_sized _ _ _ (Email.new_sized _)) hz
  rw [h2, h1, hf]
  simp only [Email.numWords, Email.wordsFrequency, Email.new, List.sum_replicate]
  norm_num

/-! ## The scenario with two words on the loops bounded by `WORDS_SET_SIZE` -/

theorem Record.zeroOne_line (l : Fin 2) :
    (Record.zeroOne l).line = ['0', ',', '1', ',', if l = 0 then '0' else '1'] := by
  revert l; decide

theorem Email.afterCalls_sized {α : Type} [Field α] (cfg : Config α)
    (lines : List (List Char)) : (Email.afterCalls cfg lines).Sized cfg := by
  unfold Email.afterCalls
  have h : ∀ (ls : List (List Char)) (e : Email α), e.Sized cfg →
      (ls.foldl (fun e l => e.setEmailData cfg l) e).Sized cfg := by
    intro ls
    induction ls with
    | nil => intro e he; exact he
    | cons l ls ih => intro e he; exact ih _ (Email.setEmailData_sized cfg e l he)
  exact h lines _ (Email.new_sized cfg)

theorem Decimal.value_nonneg_of {α : Type} [LinearOrderedField α] (d : Decimal)
    (h : d.NonNeg) : (0 : α) ≤ d.value := by
  unfold Decimal.value
  rw [h]
  simp only [Bool.false_eq_true, if_false]
  positivity

/-- C11: for the line of a well-formed record without negative frequencies,
every entry of `wordsFrequency` after `setEmailData` is at least `OFF_SET`,
hence positive when `OFF_SET` is; this holds for the call that follows any
sequence of earlier calls on the same object, whatever their strings. -/
theorem wordsFrequency_ge_OFF_SET {α : Type} [LinearOrderedField α] (cfg : Config α)
    (prior : List (List Char)) (r : Record) (hr : r.Sized cfg)
    (hnn : ∀ d ∈ r.freq, d.NonNeg) :
    ∀ x ∈ ((Email.afterCalls cfg prior).setEmailData cfg r.line).wordsFrequency,
      cfg.OFF_SET ≤ x ∧ (0 < cfg.OFF_SET → 0 < x) := by
  intro x hx
  rw [setEmailData_record cfg _ r (Email.afterCalls_sized cfg prior) hr] at hx
  simp only [Email.wordsFrequency, Record.features, List.mem_map] at hx
  obtain ⟨d, hd, rfl⟩ := hx
  have hv : (0 : α) ≤ d.value := Decimal.value_nonneg_of d (hnn d hd)
  exact ⟨by linarith, fun hε => by linarith⟩

theorem wordsFrequency_ge_OFF_SET_witness :
    (Record.zeros 57 0).Sized (Config.reference ℚ) ∧
    (∀ d ∈ (Record.zeros 57 0).freq, d.NonNeg) ∧
    ∀ x ∈ ((Email.afterCalls (Config.reference ℚ) [[], ['x', ','], (Record.zeros 57 1).line]).setEmailData
        (Config.reference ℚ) (Record.zeros 57 0).line).wordsFrequency,
      (1 / 4000 : ℚ) ≤ x ∧ 0 < x := by
  have hr : (Record.zeros 57 0).Sized (Config.reference ℚ) :=
    Record.zeros_sized (Config.reference ℚ) 0
  have hnn : ∀ d ∈ (Record.zeros 57 0).freq, d.NonNeg := by
    intro d hd
    simp only [Record.zeros, List.mem_replicate] at hd
    rw [hd.2]
    rfl
  refine ⟨hr, hnn, ?_⟩
  intro x hx
  have h := wordsFrequency_ge_OFF_SET (Config.reference ℚ)
    [[], ['x', ','], (Record.zeros 57 1).line] (Record.zeros 57 0) hr hnn x hx
  exact ⟨h.1, h.2 (by norm_num [Config.reference])⟩

/-- C12: the vector returned by `wordsFrequency` has exactly `WORDS_SET_SIZE`
entries after construction and after every call of `setEmailData`, whatever
the strings of the calls. -/
theorem wordsFrequency_length {α : Type} [Field α] (cfg : Config α) :
    (Email.new cfg).wordsFrequency.length = cfg.WORDS_SET_SIZE ∧
    ∀ (lines : List (List Char)),
      (Email.afterCalls cfg lines).wordsFrequency.length = cfg.WORDS_SET_SIZE ∧
      ∀ email_data : List Char,
        ((Email.afterCalls cfg lines).setEmailData cfg email_data).wordsFrequency.length
          = cfg.WORDS_SET_SIZE :=
  ⟨(Email.new_sized cfg).2, fun lines =>
    ⟨(Email.afterCalls_sized cfg lines).2, fun email_data =>
      (Email.setEmailData_sized cfg _ email_data (Email.afterCalls_sized cfg lines)).2⟩⟩

/-! ## Scaling of the features -/

theorem log_ratio_features_eq {α : Type} [Field α] (cfg : Config α) (m : Model α)
    (e : Email α) :
    log_ratio_features cfg m e
      = ∑ i in Finset.range cfg.WORDS_SET_SIZE,
          e.wordsFrequency.getD i 0
            * (m.word_probability_spam.getD i 0 - m.word_probability_ham.getD i 0) := by
  unfold log_ratio_features
  rw [forLoop_sum, zero_add]
  apply Finset.sum_congr rfl
  intro i _
  ring

theorem getD_scaled {α : Type} [Field α] (k : α) (e : Email α) (i : Nat) :
    (Email.scaled k e).wordsFrequency.getD i 0 = k * e.wordsFrequency.getD i 0 := by
  simp only [Email.scaled, Email.wordsFrequency, List.getD_eq_getElem?_getD, List.getElem?_map]
  cases e.words_frequency_[i]? <;> simp

theorem log_ratio_features_scaled {α : Type} [Field α] (cfg : Config α) (m : Model α)
    (e : Email α) (k : α) :
    log_ratio_features cfg m (Email.scaled k e) = k * log_ratio_features cfg m e := by
  rw [log_ratio_features_eq, log_ratio_features_eq, Finset.mul_sum]
  apply Finset.sum_congr rfl
  intro i _
  rw [getD_scaled]
  ring

/-- C14: the local `log_ratio` is its value after the scoring loop plus the
term of the class counts; for a positive `k`, the value after the scoring loop
for the record scaled by `k` is `k` times the value for the record itself, and
has the same sign. -/
theorem log_ratio_features_scaling (cfg : Config ℝ) (m : Model ℝ) (e : Email ℝ) (k : ℝ)
    (hk : 0 < k) :
    log_ratio Real.log cfg m e
      = log_ratio_features cfg m e
        + (Real.log (m.num_spam : ℝ) - Real.log (m.num_ham : ℝ)) ∧
    log_ratio_features cfg m (Email.scaled k e) = k * log_ratio_features cfg m e ∧
    (0 < log_ratio_features cfg m (Email.scaled k e) ↔ 0 < log_ratio_features cfg m e) ∧
    (log_ratio_features cfg m (Email.scaled k e) < 0 ↔ log_ratio_features cfg m e < 0) ∧
    (log_ratio_features cfg m (Email.scaled k e) = 0 ↔ log_ratio_features cfg m e = 0) := by
  have h := log_ratio_features_scaled cfg m e k
  refine ⟨rfl, h, ?_, ?_, ?_⟩
  · rw [h]; exact mul_pos_iff_of_pos_left hk
  · rw [h]
    constructor
    · intro hlt
      by_contra hge
      have : 0 ≤ k * log_ratio_features cfg m e := mul_nonneg hk.le (not_lt.mp hge)
      linarith
    · intro hlt
      exact mul_neg_of_pos_of_neg hk hlt
  · rw [h]
    constructor
    · intro h0
      rcases mul_eq_zero.mp h0 with hk0 | h1
      · exact absurd hk0 (ne_of_gt hk)
      · exact h1
    · intro h0; rw [h0, mul_zero]

theorem log_ratio_features_scaling_witness :
    (0 : ℝ) < 3 ∧
    log_ratio_features (Config.small ℝ) (Model.firstWord ℝ)
        (Email.scaled 3 { word_set_size_ := 2, words_frequency_ := [2, 5],
                          spam_or_ham_ := 0, num_words_ := 7 }) = 6 ∧
    log_ratio_features (Config.small ℝ) (Model.firstWord ℝ)
        { word_set_size_ := 2, words_frequency_ := [2, 5],
          spam_or_ham_ := 0, num_words_ := 7 } = 2 := by
  have h := (log_ratio_features_scaling (Config.small ℝ) (Model.firstWord ℝ)
    { word_set_size_ := 2, words_frequency_ := [2, 5], spam_or_ham_ := 0, num_words_ := 7 }
    3 (by norm_num)).2.1
  have h2 : log_ratio_features (Config.small ℝ) (Model.firstWord ℝ)
      { word_set_size_ := 2, words_frequency_ := [2, 5],
        spam_or_ham_ := 0, num_words_ := 7 } = 2 := by
    rw [log_ratio_features_eq]
    simp [Config.small, Model.firstWord, Email.wordsFrequency, Finset.sum_range_succ]
  refine ⟨by norm_num, ?_, h2⟩
  rw [h, h2]
  norm_num

/-! ## The vector addition -/

/-- C15: `operator+` throws exactly when the two vectors differ in length; on
vectors of equal length it returns a vector of that length whose `i`-th entry
is `A[i] + B[i]`. -/
theorem operator_plus_spec {α : Type} [Field α] (A B : List α) :
    ((∃ msg, operator_plus A B = Except.error msg) ↔ A.length ≠ B.length) ∧
    (A.length = B.length →
      ∃ v, operator_plus A B = Except.ok v ∧ v.length = A.length ∧
        ∀ (i : Nat) (hA : i < A.length) (hB : i < B.length),
          v[i]? = some (A[i] + B[i])) := by
  constructor
  · constructor
    · rintro ⟨msg, hmsg⟩ heq
      rw [operator_plus_eq A B heq] at hmsg
      cases hmsg
    · intro hne
      exact ⟨_, by unfold operator_plus; rw [if_pos hne]⟩
  · intro heq
    refine ⟨_, operator_plus_eq A B heq, by simp [heq], ?_⟩
    intro i hA hB
    simp [List.getElem?_zipWith, hA, hB]

theorem operator_plus_spec_witness :
    ([1, 2, 3] : List ℚ).length = ([10, 20, 30] : List ℚ).length ∧
    operator_plus ([1, 2, 3] : List ℚ) [10, 20, 30] = Except.ok [11, 22, 33] ∧
    ((∃ msg, operator_plus ([1, 2, 3] : List ℚ) [10, 20] = Except.error msg)
      ↔ ([1, 2, 3] : List ℚ).length ≠ ([10, 20] : List ℚ).length) := by
  refine ⟨rfl, ?_, (operator_plus_spec ([1, 2, 3] : List ℚ) [10, 20]).1⟩
  obtain ⟨v, hv, hlen, hget⟩ := (operator_plus_spec ([1, 2, 3] : List ℚ) [10, 20, 30]).2 rfl
  rw [hv]
  congr 1
  match v, hlen with
  | [a, b, c], _ =>
    have h0 := hget 0 (by decide) (by decide)
    have h1 := hget 1 (by decide) (by decide)
    have h2 := hget 2 (by decide) (by decide)
    simp at h0 h1 h2
    rw [h0, h1, h2]
    norm_num

/-! ## Ties -/

/-- C17: when the `log_ratio` of a test line is exactly zero, the body of the
test loop leaves the four confusion counters as they were, adds one to
`num_test_email` and adds one to exactly one of the two class counters
(`num_ham_in_test` when `isHam` returns `0`, `num_spam_in_test` otherwise). -/
theorem testStep_tie {α : Type} [LinearOrderedField α] (ln : α → α) (cfg : Config α)
    (m : Model α) (st : Testing α) (email_data : List Char)
    (h0 : log_ratio ln cfg m (st.my_email.setEmailData cfg email_data) = 0) :
    let c := st.counters
    let c' := (testStep ln cfg m st email_data).counters
    c'.ham_predict_as_ham = c.ham_predict_as_ham ∧
    c'.spam_predict_as_spam = c.spam_predict_as_spam ∧
    c'.ham_predict_as_spam = c.ham_predict_as_spam ∧
    c'.spam_predict_as_ham = c.spam_predict_as_ham ∧
    c'.num_test_email = c.num_test_email + 1 ∧
    c'.num_ham_in_test + c'.num_spam_in_test = c.num_ham_in_test + c.num_spam_in_test + 1 ∧
    ((st.my_email.setEmailData cfg email_data).isHam = 0 →
      c'.num_ham_in_test = c.num_ham_in_test + 1 ∧ c'.num_spam_in_test = c.num_spam_in_test) ∧
    ((st.my_email.setEmailData cfg email_data).isHam ≠ 0 →
      c'.num_spam_in_test = c.num_spam_in_test + 1 ∧ c'.num_ham_in_test = c.num_ham_in_test) := by
  intro c c'
  have hc : c' = tally (st.my_email.setEmailData cfg email_data) 0
      { st.counters with num_test_email := st.counters.num_test_email + 1 } := by
    show (testStep ln cfg m st email_data).counters = _
    unfold testStep
    simp only [h0]
  obtain ⟨c1, c2, c3, c4⟩ := tally_cells (st.my_email.setEmailData cfg email_data) (0 : α)
    { st.counters with num_test_email := st.counters.num_test_email + 1 }
  obtain ⟨d1, d2, d3⟩ := tally_classes (st.my_email.setEmailData cfg email_data) (0 : α)
    { st.counters with num_test_email := st.counters.num_test_email + 1 }
  simp only [lt_irrefl, and_false, if_false, add_zero] at c1 c2 c3 c4
  rw [hc]
  refine ⟨c4, c1, c3, c2, d1, ?_, ?_, ?_⟩
  · rw [d2, d3]
    by_cases hl : (st.my_email.setEmailData cfg email_data).isHam = 0
    · simp only [hl, if_true]; show _ = c.num_ham_in_test + c.num_spam_in_test + 1; ring
    · simp only [hl, if_false]; show _ = c.num_ham_in_test + c.num_spam_in_test + 1; ring
  · intro hl
    rw [d2, d3]
    simp [hl, c]
  · intro hl
    rw [d2, d3]
    simp [hl, c]

theorem log_ratio_tie_model (e : Email ℝ) :
    log_ratio Real.log (Config.small ℝ) (Model.tie ℝ) e = 0 := by
  rw [log_ratio_eq]
  simp [Model.tie, Config.small, Finset.sum_range_succ]

theorem testStep_tie_witness :
    log_ratio Real.log (Config.small ℝ) (Model.tie ℝ)
      ((Email.new (Config.small ℝ)).setEmailData (Config.small ℝ) ['1', ',', '0', ',', '0']) = 0 ∧
    (testStep Real.log (Config.small ℝ) (Model.tie ℝ)
      { my_email := Email.new (Config.small ℝ), counters := Counters.init }
      ['1', ',', '0', ',', '0']).counters.spam_predict_as_spam = 0 ∧
    (testStep Real.log (Config.small ℝ) (Model.tie ℝ)
      { my_email := Email.new (Config.small ℝ), counters := Counters.init }
      ['1', ',', '0', ',', '0']).counters.num_test_email = 1 := by
  have h := testStep_tie Real.log (Config.small ℝ) (Model.tie ℝ)
    { my_email := Email.new (Config.small ℝ), counters := Counters.init }
    ['1', ',', '0', ',', '0'] (log_ratio_tie_model _)
  exact ⟨log_ratio_tie_model _, h.2.1, h.2.2.2.2.1⟩

/-! ## The training loop on arbitrary lines -/

/-- The body of the training loop on any string, from a state whose vectors
have `WORDS_SET_SIZE` entries: `operator+` does not throw. -/
theorem trainStep_any {α : Type} [Field α] (cfg : Config α) (st : Training α)
    (email_data : List Char) (he : st.my_email.Sized cfg)
    (hs : st.num_words_spam.length = cfg.WORDS_SET_SIZE)
    (hh : st.num_words_ham.length = cfg.WORDS_SET_SIZE) :
    ∃ st', trainStep cfg st email_data = Except.ok st' ∧
      st'.my_email = st.my_email.setEmailData cfg email_data ∧
      st'.num_words_spam.length = cfg.WORDS_SET_SIZE ∧
      st'.num_words_ham.length = cfg.WORDS_SET_SIZE ∧
      st'.num_spam = st.num_spam
        + (if (st.my_email.setEmailData cfg email_data).isHam = 0 then 1 else 0) ∧
      st'.num_ham = st.num_ham
        + (if (st.my_email.setEmailData cfg email_data).isHam = 1 then 1 else 0) := by
  have hsz := Email.setEmailData_sized cfg st.my_email email_data he
  have hf : (st.my_email.setEmailData cfg email_data).words_frequency_.length
      = cfg.WORDS_SET_SIZE := hsz.2
  unfold trainStep
  simp only [Email.isHam, Email.wordsFrequency]
  by_cases h0 : (st.my_email.setEmailData cfg email_data).spam_or_ham_ = 0
  · have h1 : ¬ (st.my_email.setEmailData cfg email_data).spam_or_ham_ = 1 := by
      rw [h0]; decide
    simp only [h0, if_true]
    rw [operator_plus_eq _ _ (hs.trans hf.symm)]
    simp only [bind, Except.bind, pure, Except.pure, h1, if_false]
    exact ⟨_, rfl, rfl, by simp [hs, hf], hh, by simp, by simp⟩
  · by_cases h1 : (st.my_email.setEmailData cfg email_data).spam_or_ham_ = 1
    · simp only [h0, h1, if_false, if_true, pure_bind]
      rw [operator_plus_eq _ _ (hh.trans hf.symm)]
      simp only [bind, Except.bind, pure, Except.pure]
      exact ⟨_, rfl, rfl, hs, by simp [hh, hf], by simp [h0], by simp⟩
    · simp only [h0, h1, if_false, bind, Except.bind, pure, Except.pure]
      exact ⟨_, rfl, rfl, hs, hh, by simp, by simp⟩

/-- The training loop on any list of strings, from a state whose vectors have
`WORDS_SET_SIZE` entries, ends normally in such a state. -/
theorem trainLoop_any {α : Type} [Field α] (cfg : Config α) :
    ∀ (lines : List (List Char)) (st : Training α),
      st.my_email.Sized cfg →
      st.num_words_spam.length = cfg.WORDS_SET_SIZE →
      st.num_words_ham.length = cfg.WORDS_SET_SIZE →
      ∃ st', trainLoop cfg st lines = Except.ok st' ∧
        st'.my_email.Sized cfg ∧
        st'.num_words_spam.length = cfg.WORDS_SET_SIZE ∧
        st'.num_words_ham.length = cfg.WORDS_SET_SIZE := by
  intro lines
  induction lines with
  | nil => intro st he hs hh; exact ⟨st, rfl, he, hs, hh⟩
  | cons l ls ih =>
    intro st he hs hh
    obtain ⟨st1, h1, hm, hs1, hh1, _, _⟩ := trainStep_any cfg st l he hs hh
    rw [trainLoop_cons cfg st st1 l ls h1]
    exact ih st1 (hm ▸ Email.setEmailData_sized cfg _ l he) hs1 hh1

/-- C18: after any sequence of input lines the training loop has not thrown
and its accumulators have `WORDS_SET_SIZE` entries; for any further line the
three operands of the additions (`num_words_spam`, `num_words_ham` and the
`wordsFrequency` of the parsed line) have `WORDS_SET_SIZE` entries, the body
ends normally and the accumulators keep that length. -/
theorem trainLoop_never_throws {α : Type} [Field α] (cfg : Config α)
    (lines : List (List Char)) (email_data : List Char) :
    ∃ st st', trainLoop cfg (Training.init cfg) lines = Except.ok st ∧
      st.num_words_spam.length = cfg.WORDS_SET_SIZE ∧
      st.num_words_ham.length = cfg.WORDS_SET_SIZE ∧
      (st.my_email.setEmailData cfg email_data).wordsFrequency.length = cfg.WORDS_SET_SIZE ∧
      trainStep cfg st email_data = Except.ok st' ∧
      st'.num_words_spam.length = cfg.WORDS_SET_SIZE ∧
      st'.num_words_ham.length = cfg.WORDS_SET_SIZE := by
  obtain ⟨st, h0, he, hs, hh⟩ := trainLoop_any cfg lines (Training.init cfg)
    (Email.new_sized cfg) (by simp [Training.init]) (by simp [Training.init])
  obtain ⟨st', h1, _, hs1, hh1, _, _⟩ := trainStep_any cfg st email_data he hs hh
  exact ⟨st, st', h0, hs, hh, (Email.setEmailData_sized cfg _ email_data he).2, h1, hs1, hh1⟩

/-! ## Order independence of the per-class sums -/

theorem classCount_perm (l : Fin 2) (rs rs' : List Record) (hp : rs.Perm rs') :
    classCount l rs = classCount l rs' := by
  unfold classCount
  rw [(hp.filter _).length_eq]

theorem classTotal_perm {α : Type} [Field α] (cfg : Config α) (l : Fin 2)
    (rs rs' : List Record) (hp : rs.Perm rs') (i : Nat) :
    classTotal cfg l rs i = classTotal cfg l rs' i := by
  unfold classTotal
  exact ((hp.filter _).map _).sum_eq

theorem classCount_append (l : Fin 2) (rs rs' : List Record) :
    classCount l (rs ++ rs') = classCount l rs + classCount l rs' := by
  simp [classCount, List.filter_append]

theorem classTotal_append {α : Type} [Field α] (cfg : Config α) (l : Fin 2)
    (rs rs' : List Record) (i : Nat) :
    classTotal cfg l (rs ++ rs') i = classTotal cfg l rs i + classTotal cfg l rs' i := by
  simp [classTotal, List.filter_append]

/-- The training loop from the initial state on the lines of well-formed
records, in closed form. -/
theorem trainLoop_init_records {α : Type} [Field α] (cfg : Config α) (rs : List Record)
    (hrs : ∀ r ∈ rs, r.Sized cfg) :
    ∃ st, trainLoop cfg (Training.init cfg) (rs.map Record.line) = Except.ok st ∧
      st.num_words_spam.length = cfg.WORDS_SET_SIZE ∧
      st.num_words_ham.length = cfg.WORDS_SET_SIZE ∧
      st.num_spam = classCount 0 rs ∧
      st.num_ham = classCount 1 rs ∧
      (∀ i, st.num_words_spam.getD i 0 = classTotal cfg 0 rs i) ∧
      (∀ i, st.num_words_ham.getD i 0 = classTotal cfg 1 rs i) := by
  obtain ⟨st, h0, _, h2, h3, h4, h5, h6, h7⟩ := trainLoop_records cfg rs (Training.init cfg)
    (Email.new_sized cfg) (by simp [Training.init]) (by simp [Training.init]) hrs
  refine ⟨st, h0, h2, h3, ?_, ?_, ?_, ?_⟩
  · rw [h4]; simp [Training.init]
  · rw [h5]; simp [Training.init]
  · intro i; rw [h6 i]; simp [Training.init, List.getD_eq_getElem?_getD]
  · intro i; rw [h7 i]; simp [Training.init, List.getD_eq_getElem?_getD]

/-- C13: on the lines of well-formed records the training loop gives the same
`num_words_spam`, `num_words_ham`, `num_spam` and `num_ham` for a list of
records and for any permutation of it; and the totals and counts for the two
records `r1, r2` are the element-wise sums of the totals and the sums of the
counts obtained from `r1` alone and from `r2` alone. -/
theorem trainLoop_order_independent {α : Type} [Field α] (cfg : Config α)
    (rs rs' : List Record) (hp : rs.Perm rs') (hrs : ∀ r ∈ rs, r.Sized cfg) :
    (∃ st st', trainLoop cfg (Training.init cfg) (rs.map Record.line) = Except.ok st ∧
      trainLoop cfg (Training.init cfg) (rs'.map Record.line) = Except.ok st' ∧
      st.num_words_spam = st'.num_words_spam ∧ st.num_words_ham = st'.num_words_ham ∧
      st.num_spam = st'.num_spam ∧ st.num_ham = st'.num_ham) ∧
    (∀ r1 r2 : Record, r1.Sized cfg → r2.Sized cfg →
      ∃ s1 s2 s12,
        trainLoop cfg (Training.init cfg) [r1.line] = Except.ok s1 ∧
        trainLoop cfg (Training.init cfg) [r2.line] = Except.ok s2 ∧
        trainLoop cfg (Training.init cfg) [r1.line, r2.line] = Except.ok s12 ∧
        s12.num_words_spam
          = List.zipWith (fun a b => a + b) s1.num_words_spam s2.num_words_spam ∧
        s12.num_words_ham
          = List.zipWith (fun a b => a + b) s1.num_words_ham s2.num_words_ham ∧
        s12.num_spam = s1.num_spam + s2.num_spam ∧
        s12.num_ham = s1.num_ham + s2.num_ham) := by
  constructor
  · have hrs' : ∀ r ∈ rs', r.Sized cfg := fun r hr => hrs r (hp.mem_iff.mpr hr)
    obtain ⟨st, h0, h1, h2, h3, h4, h5, h6⟩ := trainLoop_init_records cfg rs hrs
    obtain ⟨st', k0, k1, k2, k3, k4, k5, k6⟩ := trainLoop_init_records cfg rs' hrs'
    refine ⟨st, st', h0, k0, ?_, ?_, ?_, ?_⟩
    · apply list_eq_of_getD _ _ (h1.trans k1.symm)
      intro i; rw [h5 i, k5 i, classTotal_perm cfg 0 rs rs' hp i]
    · apply list_eq_of_getD _ _ (h2.trans k2.symm)
      intro i; rw [h6 i, k6 i, classTotal_perm cfg 1 rs rs' hp i]
    · rw [h3, k3, classCount_perm 0 rs rs' hp]
    · rw [h4, k4, classCount_perm 1 rs rs' hp]
  · intro r1 r2 hr1 hr2
    obtain ⟨s1, a0, a1, a2, a3, a4, a5, a6⟩ := trainLoop_init_records cfg [r1]
      (by intro r hr; rw [List.mem_singleton] at hr; rw [hr]; exact hr1)
    obtain ⟨s2, b0, b1, b2, b3, b4, b5, b6⟩ := trainLoop_init_records cfg [r2]
      (by intro r hr; rw [List.mem_singleton] at hr; rw [hr]; exact hr2)
    obtain ⟨s12, c0, c1, c2, c3, c4, c5, c6⟩ := trainLoop_init_records cfg ([r1] ++ [r2])
      (by
        intro r hr
        simp only [List.mem_append, List.mem_singleton] at hr
        rcases hr with rfl | rfl
        · exact hr1
        · exact hr2)
    refine ⟨s1, s2, s12, a0, b0, c0, ?_, ?_, ?_, ?_⟩
    · apply list_eq_of_getD
      · simp [a1, b1, c1]
      · intro i
        rw [getD_zipWith_add _ _ (a1.trans b1.symm), c5 i, a5 i, b5 i, classTotal_append]
    · apply list_eq_of_getD
      · simp [a2, b2, c2]
      · intro i
        rw [getD_zipWith_add _ _ (a2.trans b2.symm), c6 i, a6 i, b6 i, classTotal_append]
    · rw [c3, a3, b3, classCount_append]
    · rw [c4, a4, b4, classCount_append]

theorem trainLoop_order_independent_witness :
    [Record.oneZero 0, Record.zeroOne 1].Perm [Record.zeroOne 1, Record.oneZero 0] ∧
    (∀ r ∈ [Record.oneZero 0, Record.zeroOne 1], r.Sized (Config.small ℚ)) ∧
    ∃ st st', trainLoop (Config.small ℚ) (Training.init (Config.small ℚ))
        [['1', ',', '0', ',', '0'], ['0', ',', '1', ',', '1']] = Except.ok st ∧
      trainLoop (Config.small ℚ) (Training.init (Config.small ℚ))
        [['0', ',', '1', ',', '1'], ['1', ',', '0', ',', '0']] = Except.ok st' ∧
      st.num_words_spam = st'.num_words_spam ∧ st.num_words_ham = st'.num_words_ham ∧
      st.num_spam = st'.num_spam ∧ st.num_ham = st'.num_ham := by
  have hp : [Record.oneZero 0, Record.zeroOne 1].Perm [Record.zeroOne 1, Record.oneZero 0] :=
    List.Perm.swap _ _ _
  have hs : ∀ r ∈ [Record.oneZero 0, Record.zeroOne 1], r.Sized (Config.small ℚ) :=
    Record.sampleTraining_sized
  have h := (trainLoop_order_independent (Config.small ℚ) _ _ hp hs).1
  have e1 : [Record.oneZero 0, Record.zeroOne 1].map Record.line
      = [['1', ',', '0', ',', '0'], ['0', ',', '1', ',', '1']] := by decide
  have e2 : [Record.zeroOne 1, Record.oneZero 0].map Record.line
      = [['0', ',', '1', ',', '1'], ['1', ',', '0', ',', '0']] := by decide
  rw [e1, e2] at h
  exact ⟨hp, hs, h⟩

/-! ## Reuse of one object -/

theorem extractInt_text (d : Decimal) : extractInt d.text = some d.intValue := by
  obtain ⟨neg, ip, fp, hip⟩ := d
  cases ip with
  | nil => exact absurd rfl hip
  | cons i0 ips =>
    have hb := extract_body (α := ℚ) i0 ips fp
    simp only at hb
    obtain ⟨h1, _⟩ := hb
    have hv := digitsValue_map (i0 :: ips)
    have hne : ((i0 :: ips).map digitChar).isEmpty = false := rfl
    cases neg with
    | true =>
      have ht : Decimal.text ⟨true, i0 :: ips, fp, hip⟩
          = '-' :: ((i0 :: ips).map digitChar
              ++ (if fp = [] then [] else '.' :: fp.map digitChar)) := by
        simp [Decimal.text]
      rw [ht]
      unfold extractInt
      rw [List.dropWhile_cons]
      simp only [show isspace '-' = false from by decide]
      simp only [splitSign, if_true, h1, hne, hv, Bool.false_eq_true, if_false]
      rfl
    | false =>
      have ht : Decimal.text ⟨false, i0 :: ips, fp, hip⟩
          = digitChar i0 :: (ips.map digitChar
              ++ (if fp = [] then [] else '.' :: fp.map digitChar)) := by
        simp [Decimal.text]
      have h1' : (digitChar i0 :: (ips.map digitChar
          ++ (if fp = [] then [] else '.' :: fp.map digitChar))).takeWhile isdigit
          = (i0 :: ips).map digitChar := h1
      rw [ht]
      unfold extractInt
      rw [List.dropWhile_cons]
      simp only [isspace_digitChar, Bool.false_eq_true, if_false]
      simp only [splitSign, digitChar_ne_minus, digitChar_ne_plus, if_false, h1', hne, hv]
      rfl

/-- The effect of `setEmailData` on a line of `K + 1` numerals, under the
class invariant. -/
theorem setEmailData_numerals {α : Type} [Field α] (cfg : Config α) (e : Email α)
    (ds : List Decimal) (last : Decimal) (he : e.Sized cfg)
    (hK : ds.length = cfg.WORDS_SET_SIZE) :
    e.setEmailData cfg (joinComma ((ds ++ [last]).map Decimal.text))
      = { word_set_size_ := cfg.WORDS_SET_SIZE
          words_frequency_ := ds.map (fun d => d.value + cfg.OFF_SET)
          spam_or_ham_ := last.intValue
          num_words_ := e.num_words_ + (ds.map (fun d => d.value + cfg.OFF_SET)).sum } := by
  have hline : (ds ++ [last]).map Decimal.text = ds.map Decimal.text ++ [last.text] := by
    simp
  rw [hline]
  unfold Email.setEmailData
  obtain ⟨s', hs'⟩ := setEmailData_loop_freq cfg last.text ds 0 [] e
    (by rw [Nat.zero_add, hK, he.1]) (he.2.trans he.1.symm)
  have hsplit : e.word_set_size_ + 1 = ds.length + 1 := by rw [hK, he.1]
  have hidx : ds.length = e.word_set_size_ := by rw [hK, he.1]
  rw [hsplit, forLoop_succ_last, Nat.zero_add, hs', hidx]
  have hl := setEmailDataBody_label cfg last.text s'
    { e with
      words_frequency_ :=
        e.words_frequency_.take 0 ++ ds.map (fun d => d.value + cfg.OFF_SET)
      num_words_ := e.num_words_ + (ds.map (fun d => d.value + cfg.OFF_SET)).sum }
    last.intValue last.text_no_comma (extractInt_text last)
  simp only at hl
  rw [hl]
  simp [he.1]

/-- C20: for a line of `K + 1` numerals and any two objects that satisfy the
class invariant, `setEmailData` on that line gives both the same
`wordsFrequency` and the same `isHam`, which are also those of a newly
constructed object. -/
theorem setEmailData_no_leak {α : Type} [Field α] (cfg : Config α) (ds : List Decimal)
    (last : Decimal) (e1 e2 : Email α) (hK : ds.length = cfg.WORDS_SET_SIZE)
    (h1 : e1.Sized cfg) (h2 : e2.Sized cfg) :
    (e1.setEmailData cfg (joinComma ((ds ++ [last]).map Decimal.text))).wordsFrequency
      = (e2.setEmailData cfg (joinComma ((ds ++ [last]).map Decimal.text))).wordsFrequency ∧
    (e1.setEmailData cfg (joinComma ((ds ++ [last]).map Decimal.text))).isHam
      = (e2.setEmailData cfg (joinComma ((ds ++ [last]).map Decimal.text))).isHam ∧
    (e1.setEmailData cfg (joinComma ((ds ++ [last]).map Decimal.text))).wordsFrequency
      = ((Email.new cfg).setEmailData cfg
          (joinComma ((ds ++ [last]).map Decimal.text))).wordsFrequency ∧
    (e1.setEmailData cfg (joinComma ((ds ++ [last]).map Decimal.text))).isHam
      = ((Email.new cfg).setEmailData cfg
          (joinComma ((ds ++ [last]).map Decimal.text))).isHam := by
  rw [setEmailData_numerals cfg e1 ds last h1 hK, setEmailData_numerals cfg e2 ds last h2 hK,
    setEmailData_numerals cfg (Email.new cfg) ds last (Email.new_sized cfg) hK]
  exact ⟨rfl, rfl, rfl, rfl⟩

theorem setEmailData_no_leak_witness :
    [Decimal.one, Decimal.zero].length = (Config.small ℚ).WORDS_SET_SIZE ∧
    (Email.afterCalls (Config.small ℚ) [['0', ',', '1', ',', '1']]).Sized (Config.small ℚ) ∧
    (Email.afterCalls (Config.small ℚ) [[], ['7']]).Sized (Config.small ℚ) ∧
    joinComma (([Decimal.one, Decimal.zero] ++ [Decimal.zero]).map Decimal.text)
      = ['1', ',', '0', ',', '0'] ∧
    ((Email.afterCalls (Config.small ℚ) [['0', ',', '1', ',', '1']]).setEmailData
        (Config.small ℚ) ['1', ',', '0', ',', '0']).wordsFrequency
      = ((Email.afterCalls (Config.small ℚ) [[], ['7']]).setEmailData
        (Config.small ℚ) ['1', ',', '0', ',', '0']).wordsFrequency := by
  have hline : joinComma (([Decimal.one, Decimal.zero] ++ [Decimal.zero]).map Decimal.text)
      = ['1', ',', '0', ',', '0'] := by decide
  have h := (setEmailData_no_leak (Config.small ℚ) [Decimal.one, Decimal.zero] Decimal.zero
    (Email.afterCalls (Config.small ℚ) [['0', ',', '1', ',', '1']])
    (Email.afterCalls (Config.small ℚ) [[], ['7']]) rfl
    (Email.afterCalls_sized _ _) (Email.afterCalls_sized _ _)).1
  rw [hline] at h
  exact ⟨rfl, Email.afterCalls_sized _ _, Email.afterCalls_sized _ _, hline, h⟩

/-! ## The reading loops -/

theorem takeWhile_ne_newline (tok rest : List Char) (h : ∀ c ∈ tok, c ≠ '\n') :
    (tok ++ '\n' :: rest).takeWhile (fun c => c != '\n') = tok := by
  induction tok with
  | nil => simp
  | cons a t ih =>
    have ha : a ≠ '\n' := h a (List.mem_cons_self a t)
    have ht : ∀ c ∈ t, c ≠ '\n' := fun c hc => h c (List.mem_cons_of_mem a hc)
    simp [List.takeWhile_cons, ha, ih ht]

theorem dropWhile_ne_newline (tok rest : List Char) (h : ∀ c ∈ tok, c ≠ '\n') :
    (tok ++ '\n' :: rest).dropWhile (fun c => c != '\n') = '\n' :: rest := by
  induction tok with
  | nil => simp
  | cons a t ih =>
    have ha : a ≠ '\n' := h a (List.mem_cons_self a t)
    have ht : ∀ c ∈ t, c ≠ '\n' := fun c hc => h c (List.mem_cons_of_mem a hc)
    simp [List.dropWhile_cons, ha, ih ht]

/-- Reading a line that a newline ends. -/
theorem getline_line (l rest s : List Char) (h : ∀ c ∈ l, c ≠ '\n') :
    getline (IStream.ofString (l ++ '\n' :: rest)) s '\n' = (IStream.ofString rest, l) := by
  simp [getline, IStream.ofString, IStream.good, takeWhile_ne_newline l rest h,
    dropWhile_ne_newline l rest h]

/-- Reading when nothing is left: the empty string, `eofbit` and `failbit`. -/
theorem getline_at_end (s : List Char) (delim : Char) :
    getline (IStream.ofString []) s delim
      = ({ buf := [], eofbit := true, failbit := true }, []) := by
  simp [getline, IStream.ofString, IStream.good]

/-- A reading loop on a file whose lines all end with a newline delivers the
lines and then the empty string, as soon as it may run once more than there
are lines. -/
theorem readLoop_fileText :
    ∀ (lines : List (List Char)) (fuel : Nat) (email_data : List Char),
      (∀ l ∈ lines, ∀ c ∈ l, c ≠ '\n') → lines.length + 1 ≤ fuel →
      readLoop fuel (IStream.ofString (fileText lines)) email_data = lines ++ [[]] := by
  intro lines
  induction lines with
  | nil =>
    intro fuel d _ hf
    obtain ⟨k, rfl⟩ : ∃ k, fuel = k + 1 := ⟨fuel - 1, by simp at hf; omega⟩
    simp only [fileText, readLoop, IStream.ofString, Bool.false_eq_true, if_false]
    have := getline_at_end d '\n'
    simp only [IStream.ofString] at this
    rw [this]
    cases k <;> simp [readLoop]
  | cons l ls ih =>
    intro fuel d hnl hf
    obtain ⟨k, rfl⟩ : ∃ k, fuel = k + 1 := ⟨fuel - 1, by simp at hf; omega⟩
    have hl : ∀ c ∈ l, c ≠ '\n' := hnl l (List.mem_cons_self l ls)
    have hg := getline_line l (fileText ls) d hl
    simp only [fileText, readLoop]
    have he : (IStream.ofString (l ++ '\n' :: fileText ls)).eofbit = false := rfl
    rw [he]
    simp only [Bool.false_eq_true, if_false, hg]
    rw [ih k l (fun x hx => hnl x (List.mem_cons_of_mem l hx))
      (by simp only [List.length_cons] at hf; omega)]
    rfl

theorem fileText_length (lines : List (List Char)) :
    lines.length ≤ (fileText lines).length := by
  induction lines with
  | nil => simp [fileText]
  | cons l ls ih => simp only [fileText, List.length_append, List.length_cons]; omega

theorem fileRecords_fileText (lines : List (List Char))
    (hnl : ∀ l ∈ lines, ∀ c ∈ l, c ≠ '\n') :
    fileRecords (fileText lines) = lines ++ [[]] := by
  unfold fileRecords
  exact readLoop_fileText lines _ [] hnl (by have := fileText_length lines; omega)

theorem testLoop_append {α : Type} [LinearOrderedField α] (ln : α → α) (cfg : Config α)
    (m : Model α) (st : Testing α) (lines : List (List Char)) (last : List Char) :
    testLoop ln cfg m st (lines ++ [last])
      = testStep ln cfg m (testLoop ln cfg m st lines) last := by
  unfold testLoop
  rw [List.foldl_append]
  rfl

theorem testLoop_num_test_email {α : Type} [LinearOrderedField α] (ln : α → α)
    (cfg : Config α) (m : Model α) :
    ∀ (lines : List (List Char)) (st : Testing α),
      (testLoop ln cfg m st lines).counters.num_test_email
        = st.counters.num_test_email + (lines.length : Int) := by
  intro lines
  induction lines with
  | nil => intro st; simp [testLoop]
  | cons l ls ih =>
    intro st
    have hstep : testLoop ln cfg m st (l :: ls)
        = testLoop ln cfg m (testStep ln cfg m st l) ls := rfl
    rw [hstep, ih]
    have h := (tally_classes (st.my_email.setEmailData cfg l)
      (log_ratio ln cfg m (st.my_email.setEmailData cfg l))
      { st.counters with num_test_email := st.counters.num_test_email + 1 }).1
    have h' : (testStep ln cfg m st l).counters.num_test_email
        = st.counters.num_test_email + 1 := h
    rw [h']
    simp only [List.length_cons, Nat.cast_add, Nat.cast_one]
    ring

theorem trainLoop_append {α : Type} [Field α] (cfg : Config α) (st : Training α)
    (lines : List (List Char)) (last : List Char) :
    trainLoop cfg st (lines ++ [last])
      = (trainLoop cfg st lines >>= fun s => trainStep cfg s last) := by
  unfold trainLoop
  rw [List.foldlM_append]
  congr 1
  funext s
  simp [List.foldlM]

theorem digitChar_ne_newline : ∀ d : Fin 10, digitChar d ≠ '\n' := by decide

theorem Decimal.text_no_newline (d : Decimal) : ∀ c ∈ d.text, c ≠ '\n' := by
  intro c hc
  simp only [Decimal.text, List.mem_append, List.mem_map] at hc
  rcases hc with hc | hc | hc
  · split at hc
    · simp at hc; rw [hc]; decide
    · simp at hc
  · obtain ⟨x, _, rfl⟩ := hc; exact digitChar_ne_newline x
  · split at hc
    · simp at hc
    · simp only [List.mem_cons, List.mem_map] at hc
      rcases hc with rfl | ⟨x, _, rfl⟩
      · decide
      · exact digitChar_ne_newline x

theorem joinComma_no_newline :
    ∀ (ts : List (List Char)), (∀ t ∈ ts, ∀ c ∈ t, c ≠ '\n') →
      ∀ c ∈ joinComma ts, c ≠ '\n' := by
  intro ts
  induction ts with
  | nil => intro _ c hc; simp [joinComma] at hc
  | cons t ts ih =>
    intro h c hc
    cases ts with
    | nil =>
      simp only [joinComma] at hc
      exact h t (List.mem_cons_self t []) c hc
    | cons u us =>
      simp only [joinComma, List.mem_append, List.mem_cons] at hc
      rcases hc with hc | rfl | hc
      · exact h t (List.mem_cons_self t _) c hc
      · decide
      · exact ih (fun x hx => h x (List.mem_cons_of_mem t hx)) c hc

theorem Record.line_no_newline (r : Record) : ∀ c ∈ r.line, c ≠ '\n' := by
  unfold Record.line
  apply joinComma_no_newline
  intro t ht
  simp only [List.mem_append, List.mem_map, List.mem_singleton] at ht
  rcases ht with ⟨d, _, rfl⟩ | rfl
  · exact d.text_no_newline
  · intro c hc
    unfold Record.labelText at hc
    split at hc <;> simp at hc <;> rw [hc] <;> decide

/-- On an exhausted stream with an empty `s`, an iteration of `setEmailData`
leaves the label as it was. -/
theorem setEmailDataBody_exhausted {α : Type} [Field α] (cfg : Config α) (i : Nat)
    (st : ParseState α) (hb : st.ss.buf = []) (hs : st.s = []) :
    (setEmailDataBody cfg i st).ss.buf = [] ∧ (setEmailDataBody cfg i st).s = [] ∧
    (setEmailDataBody cfg i st).email.spam_or_ham_ = st.email.spam_or_ham_ := by
  have hg : (getline st.ss st.s ',').1.buf = [] ∧ (getline st.ss st.s ',').2 = [] := by
    unfold getline
    by_cases hgood : st.ss.good = true
    · simp [hgood, hb]
    · simp [hgood, hb, hs]
  have hi : extractInt ([] : List Char) = none := rfl
  unfold setEmailDataBody
  by_cases h : i = st.email.word_set_size_
  · simp only [h, if_true, hg.2, hi]
    exact ⟨hg.1, trivial, trivial⟩
  · simp only [h, if_false, hg.2]
    exact ⟨hg.1, trivial, trivial⟩

theorem forLoop_setEmailDataBody_exhausted {α : Type} [Field α] (cfg : Config α) :
    ∀ (n i : Nat) (st : ParseState α), st.ss.buf = [] → st.s = [] →
      (forLoop (setEmailDataBody cfg) i n st).email.spam_or_ham_ = st.email.spam_or_ham_ := by
  intro n
  induction n with
  | zero => intro i st _ _; rfl
  | succ n ih =>
    intro i st hb hs
    obtain ⟨h1, h2, h3⟩ := setEmailDataBody_exhausted cfg i st hb hs
    rw [forLoop, ih (i + 1) _ h1 h2, h3]

/-- On the empty string `setEmailData` keeps the label of the line before. -/
theorem setEmailData_empty_isHam {α : Type} [Field α] (cfg : Config α) (e : Email α) :
    (e.setEmailData cfg []).isHam = e.isHam :=
  forLoop_setEmailDataBody_exhausted cfg _ 0
    { ss := IStream.ofString [], s := [], email := e } rfl rfl

theorem classCount_total (rs : List Record) :
    classCount 0 rs + classCount 1 rs = (rs.length : Int) := by
  induction rs with
  | nil => simp [classCount]
  | cons r rs ih =>
    have hcases : r.label = 0 ∨ r.label = 1 := by
      have : ∀ l : Fin 2, l = 0 ∨ l = 1 := by decide
      exact this r.label
    unfold classCount at ih ⊢
    rcases hcases with hl | hl
    · simp [List.filter_cons, hl]; linarith
    · simp [List.filter_cons, hl]; linarith

/-- The label that the object holds after the training loop on the lines of
well-formed records is `0` or `1`. -/
theorem trainLoop_records_isHam {α : Type} [Field α] (cfg : Config α) :
    ∀ (rs : List Record) (st st' : Training α),
      st.my_email.Sized cfg →
      st.num_words_spam.length = cfg.WORDS_SET_SIZE →
      st.num_words_ham.length = cfg.WORDS_SET_SIZE →
      (∀ r ∈ rs, r.Sized cfg) →
      (st.my_email.isHam = 0 ∨ st.my_email.isHam = 1) →
      trainLoop cfg st (rs.map Record.line) = Except.ok st' →
      (st'.my_email.isHam = 0 ∨ st'.my_email.isHam = 1) := by
  intro rs
  induction rs with
  | nil =>
    intro st st' _ _ _ _ hl h
    have : st = st' := by
      have h' : (Except.ok st : Except String (Training α)) = Except.ok st' := h
      exact Except.ok.inj h'
    rw [← this]; exact hl
  | cons r rs ih =>
    intro st st' he hs hh hrs _ h
    have hr : r.Sized cfg := hrs r (List.mem_cons_self r rs)
    obtain ⟨st1, h1, hm, hs1, hh1, _, _⟩ := trainStep_any cfg st r.line he hs hh
    rw [List.map_cons, trainLoop_cons cfg st st1 r.line _ h1] at h
    refine ih st1 st' (hm ▸ Email.setEmailData_sized cfg _ _ he) hs1 hh1
      (fun x hx => hrs x (List.mem_cons_of_mem r hx)) ?_ h
    rw [hm, setEmailData_record cfg _ r he hr]
    have : ∀ l : Fin 2, ((l.val : Int) = 0) ∨ ((l.val : Int) = 1) := by decide
    exact this r.label

/-- The training loop on the file of the well-formed records `rs`: the empty
string after the last line is counted once more, in the class of the label
that the object still holds. -/
theorem trainLoop_file_count {α : Type} [Field α] (cfg : Config α) (rs : List Record)
    (hrs : ∀ r ∈ rs, r.Sized cfg) :
    ∃ st, trainLoop cfg (Training.init cfg) (fileRecords (fileText (rs.map Record.line)))
        = Except.ok st ∧
      st.num_spam + st.num_ham = (rs.length : Int) + 1 := by
  have hnl : ∀ l ∈ rs.map Record.line, ∀ c ∈ l, c ≠ '\n' := by
    intro l hl
    rw [List.mem_map] at hl
    obtain ⟨r, _, rfl⟩ := hl
    exact r.line_no_newline
  obtain ⟨st, h0, hs, hh, hc0, hc1, _, _⟩ := trainLoop_init_records cfg rs hrs
  obtain ⟨sta, k0, ke, _, _⟩ := trainLoop_any cfg (rs.map Record.line) (Training.init cfg)
    (Email.new_sized cfg) (by simp [Training.init]) (by simp [Training.init])
  have he : st.my_email.Sized cfg := by
    rw [h0] at k0
    rw [Except.ok.inj k0]
    exact ke
  have hlab := trainLoop_records_isHam cfg rs (Training.init cfg) st (Email.new_sized cfg)
    (by simp [Training.init]) (by simp [Training.init]) hrs (Or.inl rfl) h0
  obtain ⟨st2, h2, _, _, _, n0, n1⟩ := trainStep_any cfg st [] he hs hh
  rw [setEmailData_empty_isHam] at n0 n1
  refine ⟨st2, ?_, ?_⟩
  · rw [fileRecords_fileText _ hnl, trainLoop_append, h0]
    exact h2
  · rw [n0, n1, hc0, hc1]
    have ht := classCount_total rs
    rcases hlab with hl | hl
    · rw [hl]; simp; linarith
    · rw [hl]; simp; linarith

/-- C19: for a file of `n` lines that each end with a newline, a reading loop
of `main` passes the `n` lines and then the empty string to `setEmailData`,
however many iterations it is allowed beyond `n`; the test loop therefore
processes the lines and then the empty string and adds `n + 1` to
`num_test_email`; the training loop likewise processes the lines and then the
empty string, and on well-formed records ends with `num_spam + num_ham = n + 1`;
`main` on such files reports one email more than each file has lines. -/
theorem reading_loops_trailing_record {α : Type} [LinearOrderedField α] (ln : α → α)
    (cfg : Config α) (lines : List (List Char)) (hnl : ∀ l ∈ lines, ∀ c ∈ l, c ≠ '\n') :
    fileRecords (fileText lines) = lines ++ [[]] ∧
    (∀ (fuel : Nat) (email_data : List Char), lines.length + 1 ≤ fuel →
      readLoop fuel (IStream.ofString (fileText lines)) email_data = lines ++ [[]]) ∧
    (∀ (m : Model α) (st : Testing α),
      testLoop ln cfg m st (fileRecords (fileText lines))
        = testStep ln cfg m (testLoop ln cfg m st lines) [] ∧
      (testLoop ln cfg m st (fileRecords (fileText lines))).counters.num_test_email
        = st.counters.num_test_email + ((lines.length : Int) + 1)) ∧
    (∀ st : Training α,
      trainLoop cfg st (fileRecords (fileText lines))
        = (trainLoop cfg st lines >>= fun s => trainStep cfg s [])) ∧
    (∀ rs : List Record, lines = rs.map Record.line → (∀ r ∈ rs, r.Sized cfg) →
      ∃ st, trainLoop cfg (Training.init cfg) (fileRecords (fileText lines)) = Except.ok st ∧
        st.num_spam + st.num_ham = (lines.length : Int) + 1) ∧
    (∀ rs : List Record, (∀ r ∈ rs, r.Sized cfg) →
      ∃ rep, mainOnFiles ln cfg (fileText (rs.map Record.line)) (fileText lines)
          = Except.ok rep ∧
        rep.training_emails = (rs.length : Int) + 1 ∧
        rep.test_emails = (lines.length : Int) + 1) := by
  have hf := fileRecords_fileText lines hnl
  refine ⟨hf, fun fuel d h => readLoop_fileText lines fuel d hnl h, ?_, ?_, ?_, ?_⟩
  · intro m st
    rw [hf]
    refine ⟨testLoop_append ln cfg m st lines [], ?_⟩
    rw [testLoop_num_test_email]
    simp
  · intro st
    rw [hf]
    exact trainLoop_append cfg st lines []
  · intro rs hrs hsz
    obtain ⟨st, h1, h2⟩ := trainLoop_file_count cfg rs hsz
    rw [hrs]
    refine ⟨st, h1, ?_⟩
    rw [h2]
    simp
  · intro rs hsz
    obtain ⟨st, h1, h2⟩ := trainLoop_file_count cfg rs hsz
    unfold mainOnFiles
    refine ⟨_, main_eq ln cfg _ _ st h1, ?_, ?_⟩
    · show st.num_ham + st.num_spam = _
      rw [add_comm]; exact h2
    · show (testLoop ln cfg _ _ (fileRecords (fileText lines))).counters.num_test_email = _
      rw [testLoop_num_test_email, hf]
      simp [Counters.init]

theorem reading_loops_trailing_record_witness :
    (∀ l ∈ [['1', ',', '0', ',', '0'], ['0', ',', '1', ',', '1']], ∀ c ∈ l, c ≠ '\n') ∧
    fileText [['1', ',', '0', ',', '0'], ['0', ',', '1', ',', '1']]
      = ['1', ',', '0', ',', '0', '\n', '0', ',', '1', ',', '1', '\n'] ∧
    fileRecords ['1', ',', '0', ',', '0', '\n', '0', ',', '1', ',', '1', '\n']
      = [['1', ',', '0', ',', '0'], ['0', ',', '1', ',', '1'], []] ∧
    (testLoop Real.log (Config.small ℝ) (Model.tie ℝ)
      { my_email := Email.new (Config.small ℝ), counters := Counters.init }
      (fileRecords ['1', ',', '0', ',', '0', '\n', '0', ',', '1', ',', '1', '\n'])
      ).counters.num_test_email = 3 := by
  have hnl : ∀ l ∈ [['1', ',', '0', ',', '0'], ['0', ',', '1', ',', '1']],
      ∀ c ∈ l, c ≠ '\n' := by decide
  have ht : fileText [['1', ',', '0', ',', '0'], ['0', ',', '1', ',', '1']]
      = ['1', ',', '0', ',', '0', '\n', '0', ',', '1', ',', '1', '\n'] := by decide
  have h := reading_loops_trailing_record Real.log (Config.small ℝ)
    [['1', ',', '0', ',', '0'], ['0', ',', '1', ',', '1']] hnl
  rw [ht] at h
  refine ⟨hnl, ht, h.1, ?_⟩
  have h3 := (h.2.2.1 (Model.tie ℝ)
    { my_email := Email.new (Config.small ℝ), counters := Counters.init }).2
  rw [h3]
  norm_num [Counters.init]

/-! ## Degenerate training data -/

theorem classTotal_of_count_zero {α : Type} [Field α] (cfg : Config α) (l : Fin 2)
    (rs : List Record) (h : classCount l rs = 0) (i : Nat) : classTotal cfg l rs i = 0 := by
  unfold classCount at h
  unfold classTotal
  have hnil : rs.filter (fun r => r.label = l) = [] := by
    apply List.eq_nil_of_length_eq_zero
    exact_mod_cast h
  rw [hnil]
  rfl

/-- With a class without records `main` still trains, derives a model and runs
the test loop over every test line. -/
theorem main_degenerate {α : Type} [LinearOrderedField α] (ln : α → α) (cfg : Config α)
    (rs : List Record) (test : List (List Char)) (hrs : ∀ r ∈ rs, r.Sized cfg) :
    ∃ st rep, trainLoop cfg (Training.init cfg) (rs.map Record.line) = Except.ok st ∧
      (classCount 0 rs = 0 → st.num_spam = 0 ∧ ∀ i, st.num_words_spam.getD i 0 = 0) ∧
      (classCount 1 rs = 0 → st.num_ham = 0 ∧ ∀ i, st.num_words_ham.getD i 0 = 0) ∧
      (deriveModel ln cfg st).word_probability_spam.length = cfg.WORDS_SET_SIZE ∧
      (deriveModel ln cfg st).word_probability_ham.length = cfg.WORDS_SET_SIZE ∧
      main ln cfg (rs.map Record.line) test = Except.ok rep ∧
      rep.training_spam = classCount 0 rs ∧
      rep.training_ham = classCount 1 rs ∧
      rep.test_emails = (test.length : Int) := by
  obtain ⟨st, h0, _, _, hc0, hc1, ht0, ht1⟩ := trainLoop_init_records cfg rs hrs
  obtain ⟨hl0, hl1, _, _⟩ := deriveModel_entries ln cfg st
  refine ⟨st, _, h0, ?_, ?_, hl0, hl1, main_eq ln cfg _ test st h0, hc0, hc1, ?_⟩
  · intro hz
    exact ⟨hc0.trans hz, fun i => (ht0 i).trans (classTotal_of_count_zero cfg 0 rs hz i)⟩
  · intro hz
    exact ⟨hc1.trans hz, fun i => (ht1 i).trans (classTotal_of_count_zero cfg 1 rs hz i)⟩
  · show (testLoop ln cfg _ _ test).counters.num_test_email = _
    rw [testLoop_num_test_email]
    simp [Counters.init]

/-- C16 (as amended): degenerate training data is not detected.  For every
training stream of well-formed records in which the spam class or the ham
class has no record, the training loop ends normally with the count and every
per-word total of that class equal to zero, the derivation still produces the
two vectors of `WORDS_SET_SIZE` log-probabilities, and `main` runs the test
loop over every test line and reports. -/
theorem main_degenerate_training_runs {α : Type} [LinearOrderedField α] (ln : α → α)
    (cfg : Config α) (rs : List Record) (test : List (List Char))
    (hrs : ∀ r ∈ rs, r.Sized cfg) (hdeg : classCount 0 rs = 0 ∨ classCount 1 rs = 0) :
    (classCount 0 rs = 0 ∨ classCount 1 rs = 0) ∧
    ∃ st rep, trainLoop cfg (Training.init cfg) (rs.map Record.line) = Except.ok st ∧
      (classCount 0 rs = 0 → st.num_spam = 0 ∧ ∀ i, st.num_words_spam.getD i 0 = 0) ∧
      (classCount 1 rs = 0 → st.num_ham = 0 ∧ ∀ i, st.num_words_ham.getD i 0 = 0) ∧
      (deriveModel ln cfg st).word_probability_spam.length = cfg.WORDS_SET_SIZE ∧
      (deriveModel ln cfg st).word_probability_ham.length = cfg.WORDS_SET_SIZE ∧
      main ln cfg (rs.map Record.line) test = Except.ok rep ∧
      rep.training_spam = classCount 0 rs ∧
      rep.training_ham = classCount 1 rs ∧
      rep.test_emails = (test.length : Int) :=
  ⟨hdeg, main_degenerate ln cfg rs test hrs⟩

theorem main_degenerate_training_runs_witness :
    (∀ r ∈ [Record.zeros 57 0], r.Sized (Config.reference ℝ)) ∧
    (classCount 0 [Record.zeros 57 0] = 0 ∨ classCount 1 [Record.zeros 57 0] = 0) ∧
    ∃ rep, main Real.log (Config.reference ℝ) [(Record.zeros 57 0).line]
        [(Record.zeros 57 1).line, []] = Except.ok rep ∧
      rep.test_emails = 2 := by
  have hs : ∀ r ∈ [Record.zeros 57 0], r.Sized (Config.reference ℝ) := by
    intro r hr
    rw [List.mem_singleton] at hr
    rw [hr]
    exact Record.zeros_sized (Config.reference ℝ) 0
  have hd : classCount 0 [Record.zeros 57 0] = 0 ∨ classCount 1 [Record.zeros 57 0] = 0 :=
    Or.inr (by decide)
  obtain ⟨_, _, rep, _, _, _, _, _, hm, _, _, ht⟩ :=
    main_degenerate_training_runs Real.log (Config.reference ℝ) [Record.zeros 57 0]
      [(Record.zeros 57 1).line, []] hs hd
  exact ⟨hs, hd, rep, hm, ht⟩

/-- C16 (counterexample): on the constants of `main`, with a training file of
the single spam record `0,...,0,0`, so that the ham class has no record, `main`
does not fail at the derivation: it ends normally and reports one training
spam email, no training ham email and one test email. -/
theorem main_degenerate_not_fatal :
    classCount 1 [Record.zeros 57 0] = 0 ∧
    ∃ rep, main Real.log (Config.reference ℝ) [(Record.zeros 57 0).line]
        [(Record.zeros 57 0).line] = Except.ok rep ∧
      rep.training_spam = 1 ∧ rep.training_ham = 0 ∧ rep.test_emails = 1 := by
  have hs : ∀ r ∈ [Record.zeros 57 0], r.Sized (Config.reference ℝ) := by
    intro r hr
    rw [List.mem_singleton] at hr
    rw [hr]
    exact Record.zeros_sized (Config.reference ℝ) 0
  obtain ⟨_, rep, _, _, _, _, _, hm, h1, h2, ht⟩ :=
    main_degenerate Real.log (Config.reference ℝ) [Record.zeros 57 0]
      [(Record.zeros 57 0).line] hs
  exact ⟨by decide, rep, hm, h1.trans (by decide), h2.trans (by decide), ht⟩

/-! ## Lemmas on the special values and on the loops to the literal bound -/

theorem Double.add_nan {α : Type} [LinearOrderedField α] (a : Double α) :
    a.add .nan = .nan := by
  cases a <;> rfl

theorem Double.sub_nan {α : Type} [LinearOrderedField α] (a : Double α) :
    a.sub .nan = .nan := by
  unfold Double.sub
  exact Double.add_nan a

theorem Double.nan_mul {α : Type} [LinearOrderedField α] (a : Double α) :
    (Double.nan : Double α).mul a = .nan := rfl

theorem Double.nan_add {α : Type} [LinearOrderedField α] (a : Double α) :
    (Double.nan : Double α).add a = .nan := rfl

theorem Double.num_sub_num {α : Type} [LinearOrderedField α] (x y : α) :
    (Double.num x).sub (.num y) = .num (x - y) := by
  simp [Double.sub, Double.neg, Double.add, sub_eq_add_neg]

theorem Double.log_ofInt_pos {α : Type} [LinearOrderedField α] (ln : α → α) (n : Int)
    (h : 0 < n) : Double.log ln (Double.ofInt n) = .num (ln (n : α)) := by
  have hp : (0 : α) < (n : α) := by exact_mod_cast h
  simp [Double.log, Double.ofInt, not_lt_of_gt hp, ne_of_gt hp]

/-- The first derivation loop on vectors with at least `n` entries. -/
theorem totalWordsD_loop {α : Type} [LinearOrderedField α] (st : Training α) :
    ∀ n, n ≤ st.num_words_spam.length → n ≤ st.num_words_ham.length →
      forLoop
        (fun i (t : Option (Double α × Double α)) =>
          match t, st.num_words_spam[i]?, st.num_words_ham[i]? with
          | some t, some a, some b => some (t.1.add (.num a), t.2.add (.num b))
          | _, _, _ => none)
        0 n (some (.num 0, .num 0))
      = some (.num (∑ i in Finset.range n, st.num_words_spam.getD i 0),
              .num (∑ i in Finset.range n, st.num_words_ham.getD i 0)) := by
  intro n
  induction n with
  | zero => intro _ _; simp [forLoop]
  | succ n ih =>
    intro hs hh
    have h1 : n < st.num_words_spam.length := by omega
    have h2 : n < st.num_words_ham.length := by omega
    rw [forLoop_succ_last, ih (by omega) (by omega), Nat.zero_add]
    simp only [List.getElem?_eq_getElem h1, List.getElem?_eq_getElem h2, Double.add,
      Finset.sum_range_succ, List.getD_eq_getElem?_getD, Option.getD_some]

/-- At the literal bound the totals are the sums of `57` entries. -/
theorem totalWordsD_eq {α : Type} [LinearOrderedField α] (st : Training α)
    (hs : 57 ≤ st.num_words_spam.length) (hh : 57 ≤ st.num_words_ham.length) :
    totalWordsD st
      = some (.num (∑ i in Finset.range 57, st.num_words_spam.getD i 0),
              .num (∑ i in Finset.range 57, st.num_words_ham.getD i 0)) :=
  totalWordsD_loop st 57 hs hh

/-- The scoring loop on vectors with at least `n` entries: the checked loop
has a result, the one of the loop on the entries themselves. -/
theorem log_ratioD_loop {α : Type} [LinearOrderedField α] (m : ModelD α) (e : Email α) :
    ∀ n, n ≤ m.word_probability_spam.length → n ≤ m.word_probability_ham.length →
      n ≤ e.wordsFrequency.length →
      forLoop
        (fun i (r : Option (Double α)) =>
          match r, m.word_probability_spam[i]?, m.word_probability_ham[i]?,
              e.wordsFrequency[i]? with
          | some r, some ps, some ph, some f =>
            some (r.add ((ps.mul (.num f)).sub (ph.mul (.num f))))
          | _, _, _, _ => none)
        0 n (some (.num 0))
      = some (forLoop
          (fun i (r : Double α) =>
            r.add (((m.word_probability_spam.getD i .nan).mul
                      (.num (e.wordsFrequency.getD i 0))).sub
                   ((m.word_probability_ham.getD i .nan).mul
                      (.num (e.wordsFrequency.getD i 0)))))
          0 n (.num 0)) := by
  intro n
  induction n with
  | zero => intro _ _ _; rfl
  | succ n ih =>
    intro h1 h2 h3
    have k1 : n < m.word_probability_spam.length := by omega
    have k2 : n < m.word_probability_ham.length := by omega
    have k3 : n < e.wordsFrequency.length := by omega
    rw [forLoop_succ_last, forLoop_succ_last, ih (by omega) (by omega) (by omega), Nat.zero_add]
    simp only [List.getElem?_eq_getElem k1, List.getElem?_eq_getElem k2,
      List.getElem?_eq_getElem k3, List.getD_eq_getElem?_getD, Option.getD_some]

/-- When every log-probability of the ham class is NaN, `log_ratio` is NaN. -/
theorem log_ratioD_nan {α : Type} [LinearOrderedField α] (ln : α → α) (m : ModelD α)
    (e : Email α) (h1 : 57 ≤ m.word_probability_spam.length)
    (h2 : 57 ≤ m.word_probability_ham.length) (h3 : 57 ≤ e.wordsFrequency.length)
    (hnan : ∀ i, i < 57 → m.word_probability_ham.getD i .nan = .nan) :
    log_ratioD ln m e = some .nan := by
  unfold log_ratioD
  rw [log_ratioD_loop m e 57 h1 h2 h3]
  have hloop : forLoop
      (fun i (r : Double α) =>
        r.add (((m.word_probability_spam.getD i .nan).mul
                  (.num (e.wordsFrequency.getD i 0))).sub
               ((m.word_probability_ham.getD i .nan).mul
                  (.num (e.wordsFrequency.getD i 0)))))
      0 57 (.num 0) = .nan := by
    rw [show (57 : Nat) = 56 + 1 from rfl, forLoop_succ_last, Nat.zero_add]
    simp only [hnan 56 (by decide), Double.nan_mul, Double.sub_nan, Double.add_nan]
  simp only [hloop, Double.nan_add]

/-- The scoring loop on a model whose entries are numbers. -/
theorem log_ratioD_loop_num {α : Type} [LinearOrderedField α] (m : Model α) (e : Email α) :
    ∀ n, n ≤ m.word_probability_spam.length → n ≤ m.word_probability_ham.length →
      forLoop
        (fun i (r : Double α) =>
          r.add ((((ModelD.ofModel m).word_probability_spam.getD i .nan).mul
                    (.num (e.wordsFrequency.getD i 0))).sub
                 (((ModelD.ofModel m).word_probability_ham.getD i .nan).mul
                    (.num (e.wordsFrequency.getD i 0)))))
        0 n (.num 0)
      = .num (forLoop
          (fun i r => r + (m.word_probability_spam.getD i 0 * e.wordsFrequency.getD i 0
                            - m.word_probability_ham.getD i 0 * e.wordsFrequency.getD i 0))
          0 n 0) := by
  intro n
  induction n with
  | zero => intro _ _; rfl
  | succ n ih =>
    intro h1 h2
    have k1 : n < m.word_probability_spam.length := by omega
    have k2 : n < m.word_probability_ham.length := by omega
    rw [forLoop_succ_last, forLoop_succ_last, ih (by omega) (by omega), Nat.zero_add]
    simp only [ModelD.ofModel, List.getD_eq_getElem?_getD, List.getElem?_map,
      List.getElem?_eq_getElem k1, List.getElem?_eq_getElem k2, Option.map_some',
      Option.getD_some, Double.mul, Double.num_sub_num, Double.add]

/-- For the `57` words of `main`, a model whose entries are numbers and two
positive class counts, the `log_ratio` with special values is the number that
the definition over the field gives. -/
theorem log_ratioD_ofModel {α : Type} [LinearOrderedField α] (ln : α → α) (cfg : Config α)
    (m : Model α) (e : Email α) (hK : cfg.WORDS_SET_SIZE = 57)
    (h1 : m.word_probability_spam.length = 57) (h2 : m.word_probability_ham.length = 57)
    (h3 : e.wordsFrequency.length = 57) (hs : 0 < m.num_spam) (hh : 0 < m.num_ham) :
    log_ratioD ln (ModelD.ofModel m) e = some (.num (log_ratio ln cfg m e)) := by
  unfold log_ratioD
  rw [log_ratioD_loop (ModelD.ofModel m) e 57 (by simp [ModelD.ofModel, h1])
    (by simp [ModelD.ofModel, h2]) (by omega),
    log_ratioD_loop_num m e 57 (by omega) (by omega)]
  have hs' : Double.log ln (Double.ofInt (ModelD.ofModel m).num_spam)
      = .num (ln (m.num_spam : α)) := Double.log_ofInt_pos ln _ hs
  have hh' : Double.log ln (Double.ofInt (ModelD.ofModel m).num_ham)
      = .num (ln (m.num_ham : α)) := Double.log_ofInt_pos ln _ hh
  simp only [hs', hh', Double.num_sub_num, Double.add]
  unfold log_ratio
  rw [hK]

/-- The second derivation loop on vectors with at least `n` entries. -/
theorem wordProbabilityD_loop {α : Type} [LinearOrderedField α] (ln : α → α) (K : Nat)
    (A B : List α) (t : Double α × Double α) :
    ∀ n, n ≤ A.length → n ≤ B.length → n ≤ K →
      ∃ w : List (Double α) × List (Double α),
        forLoop
          (fun i (w : Option (List (Double α) × List (Double α))) =>
            match w, A[i]?, B[i]? with
            | some w, some a, some b =>
              if i < w.1.length ∧ i < w.2.length then
                some (w.1.set i (Double.log ln ((Double.num a).div t.1)),
                      w.2.set i (Double.log ln ((Double.num b).div t.2)))
              else none
            | _, _, _ => none)
          0 n (some (List.replicate K (.num 0), List.replicate K (.num 0)))
          = some w ∧
        w.1.length = K ∧ w.2.length = K ∧
        ∀ i, i < n →
          w.1[i]? = some (Double.log ln ((Double.num (A.getD i 0)).div t.1)) ∧
          w.2[i]? = some (Double.log ln ((Double.num (B.getD i 0)).div t.2)) := by
  intro n
  induction n with
  | zero =>
    intro _ _ _
    exact ⟨_, rfl, by simp, by simp, fun i hi => absurd hi (Nat.not_lt_zero i)⟩
  | succ n ih =>
    intro hA hB hK
    obtain ⟨w, hw, l1, l2, hget⟩ := ih (by omega) (by omega) (by omega)
    have kA : n < A.length := by omega
    have kB : n < B.length := by omega
    have c1 : n < w.1.length := by omega
    have c2 : n < w.2.length := by omega
    rw [forLoop_succ_last, hw, Nat.zero_add]
    simp only [List.getElem?_eq_getElem kA, List.getElem?_eq_getElem kB, c1, c2, and_self,
      if_true]
    refine ⟨_, rfl, by simp [l1], by simp [l2], ?_⟩
    intro i hi
    by_cases hin : i = n
    · subst hin
      simp [List.getElem?_set, c1, c2, List.getD_eq_getElem?_getD, kA, kB]
    · have hlt : i < n := by omega
      obtain ⟨g1, g2⟩ := hget i hlt
      simp only [List.getElem?_set_ne (Ne.symm hin)]
      exact ⟨g1, g2⟩

/-- For the `57` words of `main` the derivation stays within its vectors; each
entry is `log` of the quotient of the per-word total by the class total. -/
theorem deriveModelD_entries {α : Type} [LinearOrderedField α] (ln : α → α) (cfg : Config α)
    (st : Training α) (hK : cfg.WORDS_SET_SIZE = 57)
    (hs : st.num_words_spam.length = 57) (hh : st.num_words_ham.length = 57) :
    ∃ m, deriveModelD ln cfg st = some m ∧
      m.num_spam = st.num_spam ∧ m.num_ham = st.num_ham ∧
      m.word_probability_spam.length = 57 ∧ m.word_probability_ham.length = 57 ∧
      ∀ i, i < 57 →
        m.word_probability_spam[i]?
          = some (Double.log ln ((Double.num (st.num_words_spam.getD i 0)).div
              (.num (∑ j in Finset.range 57, st.num_words_spam.getD j 0)))) ∧
        m.word_probability_ham[i]?
          = some (Double.log ln ((Double.num (st.num_words_ham.getD i 0)).div
              (.num (∑ j in Finset.range 57, st.num_words_ham.getD j 0)))) := by
  obtain ⟨w, hw, l1, l2, hget⟩ := wordProbabilityD_loop ln cfg.WORDS_SET_SIZE
    st.num_words_spam st.num_words_ham
    (.num (∑ j in Finset.range 57, st.num_words_spam.getD j 0),
     .num (∑ j in Finset.range 57, st.num_words_ham.getD j 0))
    57 (by omega) (by omega) (by omega)
  have hwp : wordProbabilityD ln cfg st = some w := by
    unfold wordProbabilityD
    rw [totalWordsD_eq st (by omega) (by omega)]
    exact hw
  refine ⟨_, by unfold deriveModelD; rw [hwp], rfl, rfl, by rw [l1, hK], by rw [l2, hK], hget⟩

theorem Double.log_div_pos {α : Type} [LinearOrderedField α] (ln : α → α) (a t : α)
    (ha : 0 < a) (ht : 0 < t) :
    Double.log ln ((Double.num a).div (.num t)) = .num (ln (a / t)) := by
  have hq : 0 < a / t := div_pos ha ht
  simp [Double.div, Double.log, ne_of_gt ht, not_lt_of_gt hq, ne_of_gt hq]

/-- For the `57` words of `main` and positive per-word totals in both classes
no special value arises in the derivation: the derived model is the one that
the definitions over the field give. -/
theorem deriveModelD_ofModel {α : Type} [LinearOrderedField α] (ln : α → α) (cfg : Config α)
    (st : Training α) (hK : cfg.WORDS_SET_SIZE = 57)
    (hs : st.num_words_spam.length = 57) (hh : st.num_words_ham.length = 57)
    (ps : ∀ i, i < 57 → 0 < st.num_words_spam.getD i 0)
    (ph : ∀ i, i < 57 → 0 < st.num_words_ham.getD i 0) :
    deriveModelD ln cfg st = some (ModelD.ofModel (deriveModel ln cfg st)) := by
  obtain ⟨m, hm, n1, n2, l1, l2, hget⟩ := deriveModelD_entries ln cfg st hK hs hh
  obtain ⟨k1, k2, e1, e2⟩ := deriveModel_entries ln cfg st
  rw [hK] at k1 k2 e1 e2
  have ts : 0 < ∑ j in Finset.range 57, st.num_words_spam.getD j 0 :=
    Finset.sum_pos (fun i hi => ps i (Finset.mem_range.mp hi)) ⟨0, by simp⟩
  have th : 0 < ∑ j in Finset.range 57, st.num_words_ham.getD j 0 :=
    Finset.sum_pos (fun i hi => ph i (Finset.mem_range.mp hi)) ⟨0, by simp⟩
  rw [hm]
  congr 1
  obtain ⟨ws, wh, ns, nh⟩ := m
  simp only at n1 n2 l1 l2 hget
  simp only [ModelD.ofModel, ModelD.mk.injEq]
  refine ⟨?_, ?_, ?_, ?_⟩
  · apply List.ext_getElem?
    intro i
    by_cases hi : i < 57
    · rw [(hget i hi).1, Double.log_div_pos ln _ _ (ps i hi) ts, List.getElem?_map]
      have := e1 i hi
      rw [List.getD_eq_getElem?_getD, List.getElem?_eq_getElem (by omega),
        Option.getD_some] at this
      rw [List.getElem?_eq_getElem (by omega), Option.map_some', this]
    · rw [List.getElem?_eq_none (by omega), List.getElem?_eq_none (by simp; omega)]
  · apply List.ext_getElem?
    intro i
    by_cases hi : i < 57
    · rw [(hget i hi).2, Double.log_div_pos ln _ _ (ph i hi) th, List.getElem?_map]
      have := e2 i hi
      rw [List.getD_eq_getElem?_getD, List.getElem?_eq_getElem (by omega),
        Option.getD_some] at this
      rw [List.getElem?_eq_getElem (by omega), Option.map_some', this]
    · rw [List.getElem?_eq_none (by omega), List.getElem?_eq_none (by simp; omega)]
  · exact n1
  · exact n2

theorem tallyD_cells {α : Type} [LinearOrderedField α] (e : Email α) (r : Double α)
    (c : Counters) :
    (tallyD e r c).spam_predict_as_spam
        = c.spam_predict_as_spam + (if e.isHam = 0 ∧ r.isPos = true then 1 else 0) ∧
    (tallyD e r c).spam_predict_as_ham
        = c.spam_predict_as_ham + (if e.isHam = 0 ∧ r.isNeg = true then 1 else 0) ∧
    (tallyD e r c).ham_predict_as_spam
        = c.ham_predict_as_spam + (if e.isHam ≠ 0 ∧ r.isPos = true then 1 else 0) ∧
    (tallyD e r c).ham_predict_as_ham
        = c.ham_predict_as_ham + (if e.isHam ≠ 0 ∧ r.isNeg = true then 1 else 0) ∧
    (tallyD e r c).num_test_email = c.num_test_email := by
  unfold tallyD
  by_cases hl : e.isHam = 0 <;> by_cases h1 : r.isNeg = true <;>
    by_cases h2 : r.isPos = true <;> simp [hl, h1, h2]

/-- A `double` that is neither zero nor NaN is either negative or positive. -/
theorem Double.isNeg_xor_isPos {α : Type} [LinearOrderedField α] (v : Double α)
    (hnan : v ≠ .nan) (hzero : v ≠ .num 0) :
    (v.isNeg = true ∧ v.isPos = false) ∨ (v.isNeg = false ∧ v.isPos = true) := by
  cases v with
  | nan => exact absurd rfl hnan
  | inf s => cases s <;> simp [Double.isNeg, Double.isPos]
  | num x =>
    have hx : x ≠ 0 := fun h => hzero (by rw [h])
    rcases lt_or_gt_of_ne hx with h | h
    · left; simp [Double.isNeg, Double.isPos, h, not_lt_of_gt h]
    · right; simp [Double.isNeg, Double.isPos, h, not_lt_of_gt h]

/-- On a number the counting statements with special values are those over
the field. -/
theorem tallyD_num {α : Type} [LinearOrderedField α] (e : Email α) (x : α) (c : Counters) :
    tallyD e (.num x) c = tally e x c := by
  unfold tallyD tally
  simp only [Double.isNeg, Double.isPos, decide_eq_true_eq]

/-- For the `57` words of `main`, a model whose entries are numbers and two
positive class counts, the body of the test loop with special values is the
one over the field. -/
theorem testStepD_ofModel {α : Type} [LinearOrderedField α] (ln : α → α) (cfg : Config α)
    (m : Model α) (st : Testing α) (email_data : List Char)
    (hK : cfg.WORDS_SET_SIZE = 57) (he : st.my_email.Sized cfg)
    (h1 : m.word_probability_spam.length = 57) (h2 : m.word_probability_ham.length = 57)
    (hs : 0 < m.num_spam) (hh : 0 < m.num_ham) :
    testStepD ln cfg (ModelD.ofModel m) st email_data
      = some (testStep ln cfg m st email_data) := by
  have h3 : (st.my_email.setEmailData cfg email_data).wordsFrequency.length = 57 := by
    have := (Email.setEmailData_sized cfg st.my_email email_data he).2
    rw [hK] at this
    exact this
  unfold testStepD testStep
  simp only [log_ratioD_ofModel ln cfg m _ hK h1 h2 h3 hs hh, tallyD_num]

/-! ## The decision rule with special values -/

/-- C2: for a well-formed test record whose `log_ratio` is neither zero nor
NaN, the body of the test loop adds one to the confusion counter of (true
label, predicted label) and leaves the other three as they were; the true
label is spam for the label `0` and ham for the label `1`, the prediction is
spam for a positive `log_ratio` and ham for a negative one. -/
theorem testStepD_confusion_cell {α : Type} [LinearOrderedField α] (ln : α → α)
    (cfg : Config α) (m : ModelD α) (st : Testing α) (r : Record) (v : Double α)
    (he : st.my_email.Sized cfg) (hr : r.Sized cfg)
    (hv : log_ratioD ln m (st.my_email.setEmailData cfg r.line) = some v)
    (hnan : v ≠ .nan) (hzero : v ≠ .num 0) :
    ∃ t, testStepD ln cfg m st r.line = some t ∧
      t.counters.spam_predict_as_spam
        = st.counters.spam_predict_as_spam
          + (if r.label = 0 ∧ v.isPos = true then 1 else 0) ∧
      t.counters.spam_predict_as_ham
        = st.counters.spam_predict_as_ham
          + (if r.label = 0 ∧ v.isNeg = true then 1 else 0) ∧
      t.counters.ham_predict_as_spam
        = st.counters.ham_predict_as_spam
          + (if r.label = 1 ∧ v.isPos = true then 1 else 0) ∧
      t.counters.ham_predict_as_ham
        = st.counters.ham_predict_as_ham
          + (if r.label = 1 ∧ v.isNeg = true then 1 else 0) ∧
      (if r.label = 0 ∧ v.isPos = true then (1 : Int) else 0)
        + (if r.label = 0 ∧ v.isNeg = true then 1 else 0)
        + (if r.label = 1 ∧ v.isPos = true then 1 else 0)
        + (if r.label = 1 ∧ v.isNeg = true then 1 else 0) = 1 := by
  have hlab : (st.my_email.setEmailData cfg r.line).isHam = (r.label.val : Int) := by
    rw [setEmailData_record cfg _ r he hr]; rfl
  obtain ⟨h1, h2, h3, h4, _⟩ := tallyD_cells (st.my_email.setEmailData cfg r.line) v
    { st.counters with num_test_email := st.counters.num_test_email + 1 }
  have hl0 : ((r.label.val : Int) = 0) ↔ r.label = 0 := by
    have : ∀ l : Fin 2, ((l.val : Int) = 0) ↔ l = 0 := by decide
    exact this r.label
  have hl1 : ((r.label.val : Int) ≠ 0) ↔ r.label = 1 := by
    have : ∀ l : Fin 2, ((l.val : Int) ≠ 0) ↔ l = 1 := by decide
    exact this r.label
  rw [hlab] at h1 h2 h3 h4
  simp only [hl0, hl1] at h1 h2 h3 h4
  have hstep : testStepD ln cfg m st r.line
      = some { my_email := st.my_email.setEmailData cfg r.line
               counters := tallyD (st.my_email.setEmailData cfg r.line) v
                 { st.counters with num_test_email := st.counters.num_test_email + 1 } } := by
    unfold testStepD
    simp only [hv]
  refine ⟨_, hstep, h1, h2, h3, h4, ?_⟩
  have hcases : r.label = 0 ∨ r.label = 1 := by
    have : ∀ l : Fin 2, l = 0 ∨ l = 1 := by decide
    exact this r.label
  rcases hcases with hl | hl <;>
    rcases Double.isNeg_xor_isPos v hnan hzero with ⟨a, b⟩ | ⟨a, b⟩ <;>
    simp [hl, a, b]

theorem log_ratio_flat (e : Email ℝ) :
    log_ratio Real.log (Config.reference ℝ) (Model.flat ℝ) e = Real.log 2 := by
  rw [log_ratio_eq]
  have hz : ∀ i, (Model.flat ℝ).word_probability_spam.getD i 0
      - (Model.flat ℝ).word_probability_ham.getD i 0 = 0 := by
    intro i
    simp [Model.flat]
  simp [hz, Model.flat]

theorem testStepD_confusion_cell_witness :
    (Email.new (Config.reference ℝ)).Sized (Config.reference ℝ) ∧
    (Record.zeros 57 0).Sized (Config.reference ℝ) ∧
    log_ratioD Real.log (ModelD.ofModel (Model.flat ℝ))
      ((Email.new (Config.reference ℝ)).setEmailData (Config.reference ℝ)
        (Record.zeros 57 0).line) = some (.num (Real.log 2)) ∧
    (Double.num (Real.log 2) : Double ℝ) ≠ .nan ∧
    (Double.num (Real.log 2) : Double ℝ) ≠ .num 0 ∧
    ∃ t, testStepD Real.log (Config.reference ℝ) (ModelD.ofModel (Model.flat ℝ))
        { my_email := Email.new (Config.reference ℝ), counters := Counters.init }
        (Record.zeros 57 0).line = some t ∧
      t.counters.spam_predict_as_spam = 1 := by
  have he : (Email.new (Config.reference ℝ)).Sized (Config.reference ℝ) := Email.new_sized _
  have hr : (Record.zeros 57 0).Sized (Config.reference ℝ) :=
    Record.zeros_sized (Config.reference ℝ) 0
  have hlog : (0 : ℝ) < Real.log 2 := Real.log_pos (by norm_num)
  have hv : log_ratioD Real.log (ModelD.ofModel (Model.flat ℝ))
      ((Email.new (Config.reference ℝ)).setEmailData (Config.reference ℝ)
        (Record.zeros 57 0).line) = some (.num (Real.log 2)) := by
    rw [log_ratioD_ofModel Real.log (Config.reference ℝ) (Model.flat ℝ) _ rfl
      (by simp [Model.flat]) (by simp [Model.flat])
      (Email.setEmailData_sized _ _ _ he).2 (by decide) (by decide), log_ratio_flat]
  have hnan : (Double.num (Real.log 2) : Double ℝ) ≠ .nan := by
    intro h; cases h
  have hzero : (Double.num (Real.log 2) : Double ℝ) ≠ .num 0 := by
    intro h
    injection h with h'
    exact (ne_of_gt hlog) h'
  obtain ⟨t, ht, h1, _, _, _, _⟩ := testStepD_confusion_cell Real.log (Config.reference ℝ)
    (ModelD.ofModel (Model.flat ℝ))
    { my_email := Email.new (Config.reference ℝ), counters := Counters.init }
    (Record.zeros 57 0) (Double.num (Real.log 2)) he hr hv hnan hzero
  refine ⟨he, hr, hv, hnan, hzero, t, ht, ?_⟩
  rw [h1]
  simp [Counters.init, Record.zeros, Double.isPos, hlog]

/-- After training on a file without any ham record, on the constants of
`main`, every derived log-probability of the ham class is NaN and so is the
`log_ratio` of any parsed line. -/
theorem log_ratioD_spam_only (email_data : List Char) :
    ∃ st m, trainLoop (Config.reference ℝ) (Training.init (Config.reference ℝ))
        [(Record.zeros 57 0).line] = Except.ok st ∧
      deriveModelD Real.log (Config.reference ℝ) st = some m ∧
      log_ratioD Real.log m (st.my_email.setEmailData (Config.reference ℝ) email_data)
        = some .nan := by
  obtain ⟨st, h0, he, hs, hh, _, _, _, h7⟩ := trainLoop_records (Config.reference ℝ)
    [Record.zeros 57 0] (Training.init (Config.reference ℝ))
    (Email.new_sized _) (by simp [Training.init]) (by simp [Training.init])
    (by
      intro r hr
      rw [List.mem_singleton] at hr
      rw [hr]
      exact Record.zeros_sized (Config.reference ℝ) 0)
  have hK : (Config.reference ℝ).WORDS_SET_SIZE = 57 := rfl
  rw [hK] at hs hh
  have hzero : ∀ i, st.num_words_ham.getD i 0 = 0 := by
    intro i
    rw [h7 i, classTotal_of_count_zero (Config.reference ℝ) 1 [Record.zeros 57 0]
      (by decide) i]
    simp [Training.init, List.getD_eq_getElem?_getD]
  obtain ⟨m, hm, _, _, l1, l2, hget⟩ :=
    deriveModelD_entries Real.log (Config.reference ℝ) st hK hs hh
  refine ⟨st, m, h0, hm, ?_⟩
  have hlen : 57 ≤ (st.my_email.setEmailData (Config.reference ℝ)
      email_data).wordsFrequency.length := by
    have := (Email.setEmailData_sized (Config.reference ℝ) st.my_email email_data he).2
    rw [hK] at this
    show 57 ≤ (st.my_email.setEmailData (Config.reference ℝ)
      email_data).words_frequency_.length
    omega
  have hnan : ∀ i, i < 57 → m.word_probability_ham.getD i .nan = .nan := by
    intro i hi
    rw [List.getD_eq_getElem?_getD, (hget i hi).2]
    simp only [hzero, Finset.sum_const_zero, Option.getD_some]
    simp [Double.div, Double.log]
  exact log_ratioD_nan Real.log m _ (by omega) (by omega) hlen hnan

/-- C2 (counterexample): on the constants of `main`, after training on the
single spam record `0,...,0,0`, so that the ham class has no record, the test
record `0,...,0,0` has the `log_ratio` NaN, which is not zero, and the body of
the test loop leaves all four confusion counters at zero. -/
theorem testStepD_nan_no_cell :
    ∃ st m t, trainLoop (Config.reference ℝ) (Training.init (Config.reference ℝ))
        [(Record.zeros 57 0).line] = Except.ok st ∧
      deriveModelD Real.log (Config.reference ℝ) st = some m ∧
      log_ratioD Real.log m
        (st.my_email.setEmailData (Config.reference ℝ) (Record.zeros 57 0).line) = some .nan ∧
      (Double.nan : Double ℝ) ≠ .num 0 ∧
      testStepD Real.log (Config.reference ℝ) m
        { my_email := st.my_email, counters := Counters.init }
        (Record.zeros 57 0).line = some t ∧
      t.counters.num_test_email = 1 ∧
      t.counters.ham_predict_as_ham = 0 ∧ t.counters.spam_predict_as_spam = 0 ∧
      t.counters.ham_predict_as_spam = 0 ∧ t.counters.spam_predict_as_ham = 0 := by
  obtain ⟨st, m, h0, hm, hv⟩ := log_ratioD_spam_only (Record.zeros 57 0).line
  obtain ⟨c1, c2, c3, c4, c5⟩ := tallyD_cells
    (st.my_email.setEmailData (Config.reference ℝ) (Record.zeros 57 0).line)
    (Double.nan : Double ℝ)
    { Counters.init with num_test_email := Counters.init.num_test_email + 1 }
  have hstep : testStepD Real.log (Config.reference ℝ) m
      { my_email := st.my_email, counters := Counters.init } (Record.zeros 57 0).line
      = some { my_email := st.my_email.setEmailData (Config.reference ℝ)
                 (Record.zeros 57 0).line
               counters := tallyD (st.my_email.setEmailData (Config.reference ℝ)
                   (Record.zeros 57 0).line) .nan
                 { Counters.init with
                   num_test_email := Counters.init.num_test_email + 1 } } := by
    unfold testStepD
    simp only [hv]
  simp only [Double.isPos, Double.isNeg, Bool.false_eq_true, and_false, if_false,
    add_zero] at c1 c2 c3 c4
  have hne : (Double.nan : Double ℝ) ≠ .num 0 := by
    intro h
    cases h
  exact ⟨st, m, _, h0, hm, hv, hne, hstep, c5, c4, c1, c3, c2⟩

/-! ## The end-to-end scenario on the loops of `main` -/

end SpamFilter
